import Mathlib

set_option autoImplicit false

/-! Shallow embedding of the doubly linked list of src/core/types/list.cpp
(`ListData`, `ListElement`, `LinkedList`).  Pointers are modelled as ids
(`Option Nat`, `none` being the null pointer) into an explicit heap `Mem`;
an operation returning `none` models a crash or an undefined pointer
dereference.  A `LinkedList` handle is its `_data` field, an `Option Nat`
naming the owned `ListData` block (null when the list owns no storage). -/

/-- `ListElement` (list.cpp): stored value, links to the neighbours, and the
back-reference `data` to the owning `ListData` block. -/
structure ListElement where
  value : Int
  prev_ptr : Option Nat
  next_ptr : Option Nat
  data : Nat
deriving DecidableEq, Repr

/-- `ListData` (list.cpp): ids of the first/last node and the cached size. -/
structure ListData where
  first : Option Nat
  last : Option Nat
  size_cache : Int
deriving DecidableEq, Repr

/-- The heap: nodes and data blocks addressed by ids; `next` is the
allocation counter, so fresh allocations never collide with live ids. -/
structure Mem where
  elems : Nat → Option ListElement
  datas : Nat → Option ListData
  next : Nat

/-- Write through a node pointer; `none` if the id is dangling. -/
def setE (m : Mem) (i : Nat) (e : ListElement) : Option Mem :=
  match m.elems i with
  | none => none
  | some _ => some { m with elems := fun j => if j = i then some e else m.elems j }

/-- `memdelete` of a node; `none` if the id is dangling. -/
def delE (m : Mem) (i : Nat) : Option Mem :=
  match m.elems i with
  | none => none
  | some _ => some { m with elems := fun j => if j = i then none else m.elems j }

/-- Write through a `ListData` pointer; `none` if the id is dangling. -/
def setD (m : Mem) (i : Nat) (d : ListData) : Option Mem :=
  match m.datas i with
  | none => none
  | some _ => some { m with datas := fun j => if j = i then some d else m.datas j }

/-- `memdelete_allocator` of a `ListData` block. -/
def delD (m : Mem) (i : Nat) : Option Mem :=
  match m.datas i with
  | none => none
  | some _ => some { m with datas := fun j => if j = i then none else m.datas j }

/-- `_data->first = x` through a possibly null `_data` handle. -/
def setFirstP (m : Mem) (s : Option Nat) (x : Option Nat) : Option Mem := do
  let dId ← s
  let d ← m.datas dId
  setD m dId { d with first := x }

/-- `_data->last = x` through a possibly null `_data` handle. -/
def setLastP (m : Mem) (s : Option Nat) (x : Option Nat) : Option Mem := do
  let dId ← s
  let d ← m.datas dId
  setD m dId { d with last := x }

/-- Read `_data->last` through a possibly null `_data` handle. -/
def getLastP (m : Mem) (s : Option Nat) : Option (Option Nat) := do
  let dId ← s
  let d ← m.datas dId
  some d.last

/-- Modelled from the spec: `ListElement::next()` is declared in the missing
header list.h; per spec §4.3 it returns the adjacent handle, i.e. the node's
`next_ptr`. -/
def ListElement.next (e : ListElement) : Option Nat := e.next_ptr

/-- Modelled from the spec: `ListElement::prev()` is declared in the missing
header list.h; per spec §4.3 it returns the node's `prev_ptr`. -/
def ListElement.prev (e : ListElement) : Option Nat := e.prev_ptr

/-- `ListData::erase` (list.cpp lines 3-23): unlink and delete one node.
Fails (returning `false`) on a null argument or a back-reference mismatch. -/
def ListData.erase (m : Mem) (dId : Nat) (pI : Option Nat) : Option (Bool × Mem) :=
  match pI with
  | none => some (false, m)
  | some i =>
    match m.elems i with
    | none => none
    | some e =>
      if e.data ≠ dId then some (false, m)
      else
        match m.datas dId with
        | none => none
        | some d =>
          let d := if d.first = some i then { d with first := e.next_ptr } else d
          let d := if d.last = some i then { d with last := e.prev_ptr } else d
          do
            let m ← match e.prev_ptr with
              | some p => do
                  let pe ← m.elems p
                  setE m p { pe with next_ptr := e.next_ptr }
              | none => some m
            let e1 ← m.elems i
            let m ← match e1.next_ptr with
              | some q => do
                  let qe ← m.elems q
                  setE m q { qe with prev_ptr := e1.prev_ptr }
              | none => some m
            let m ← delE m i
            let m ← setD m dId { d with size_cache := d.size_cache - 1 }
            some (true, m)

/-- `LinkedList::remove` (lines 90-100): delegate to `ListData::erase`; free
the storage when it becomes empty.  Returns the flag, the new heap and the
new `_data` handle. -/
def LinkedList.remove (m : Mem) (s : Option Nat) (pI : Option Nat) :
    Option (Bool × Mem × Option Nat) :=
  match s with
  | none => some (false, m, none)
  | some dId => do
    let bm ← ListData.erase m dId pI
    let ret := bm.1
    let m := bm.2
    match m.datas dId with
    | none => none
    | some d =>
      if d.size_cache = 0 then do
        let m ← delD m dId
        some (ret, m, none)
      else some (ret, m, some dId)

/-- `LinkedList::push_back` (lines 25-50): lazily allocate the storage, link a
new node at the tail.  Returns the heap, the `_data` id and the new node id. -/
def LinkedList.push_back (m : Mem) (s : Option Nat) (value : Int) :
    Option (Mem × Nat × Nat) :=
  let md : Mem × Nat :=
    match s with
    | none =>
      ({ m with datas := fun j => if j = m.next then some ⟨none, none, 0⟩ else m.datas j,
                next := m.next + 1 }, m.next)
    | some dId => (m, dId)
  let m := md.1
  let dId := md.2
  match m.datas dId with
  | none => none
  | some d =>
    let nId := m.next
    let m : Mem :=
      { m with elems := fun j => if j = nId then some ⟨value, d.last, none, dId⟩ else m.elems j,
               next := m.next + 1 }
    do
      let m ← match d.last with
        | some t => do
            let te ← m.elems t
            setE m t { te with next_ptr := some nId }
        | none => some m
      let d := { d with last := some nId }
      let d := if d.first = none then { d with first := some nId } else d
      let m ← setD m dId { d with size_cache := d.size_cache + 1 }
      some (m, dId, nId)

/-- `LinkedList::push_front` (lines 58-82). -/
def LinkedList.push_front (m : Mem) (s : Option Nat) (value : Int) :
    Option (Mem × Nat × Nat) :=
  let md : Mem × Nat :=
    match s with
    | none =>
      ({ m with datas := fun j => if j = m.next then some ⟨none, none, 0⟩ else m.datas j,
                next := m.next + 1 }, m.next)
    | some dId => (m, dId)
  let m := md.1
  let dId := md.2
  match m.datas dId with
  | none => none
  | some d =>
    let nId := m.next
    let m : Mem :=
      { m with elems := fun j => if j = nId then some ⟨value, none, d.first, dId⟩ else m.elems j,
               next := m.next + 1 }
    do
      let m ← match d.first with
        | some f => do
            let fe ← m.elems f
            setE m f { fe with prev_ptr := some nId }
        | none => some m
      let d := { d with first := some nId }
      let d := if d.last = none then { d with last := some nId } else d
      let m ← setD m dId { d with size_cache := d.size_cache + 1 }
      some (m, dId, nId)

/-- `LinkedList::pop_back` (lines 52-56): no-op on an empty list. -/
def LinkedList.pop_back (m : Mem) (s : Option Nat) : Option (Mem × Option Nat) :=
  match s with
  | none => some (m, none)
  | some dId =>
    match m.datas dId with
    | none => none
    | some d =>
      match d.last with
      | none => some (m, s)
      | some t => do
          let r ← LinkedList.remove m s (some t)
          some (r.2.1, r.2.2)

/-- `LinkedList::pop_front` (lines 84-88). -/
def LinkedList.pop_front (m : Mem) (s : Option Nat) : Option (Mem × Option Nat) :=
  match s with
  | none => some (m, none)
  | some dId =>
    match m.datas dId with
    | none => none
    | some d =>
      match d.first with
      | none => some (m, s)
      | some f => do
          let r ← LinkedList.remove m s (some f)
          some (r.2.1, r.2.2)

/-- Modelled from the spec: `LinkedList::front()` is declared in the missing
header list.h; per spec §8 it returns the handle of the first node
(`_data->first`), null for an empty list. -/
def LinkedList.front (m : Mem) (s : Option Nat) : Option (Option Nat) :=
  match s with
  | none => some none
  | some dId => (m.datas dId).map ListData.first

/-- Modelled from the spec: `LinkedList::back()` from the missing list.h;
returns the handle of the last node. -/
def LinkedList.back (m : Mem) (s : Option Nat) : Option (Option Nat) :=
  match s with
  | none => some none
  | some dId => (m.datas dId).map ListData.last

/-- Modelled from the spec: `LinkedList::size()` from the missing list.h;
returns the cached count, 0 for an empty handle. -/
def LinkedList.size (m : Mem) (s : Option Nat) : Option Int :=
  match s with
  | none => some (0 : Int)
  | some dId => (m.datas dId).map ListData.size_cache

/-- The loop of `LinkedList::find` (lines 102-111), with fuel: the C++ loop
would not terminate on a corrupted cyclic chain; exhausted fuel is `none`. -/
def LinkedList.findLoop (m : Mem) (v : Int) : Option Nat → Nat → Option (Option Nat)
  | none, _ => some none
  | some _, 0 => none
  | some i, fuel + 1 =>
    match m.elems i with
    | none => none
    | some e =>
      if e.value = v then some (some i) else LinkedList.findLoop m v e.next fuel

/-- `LinkedList::find` (lines 102-111): linear scan from `front()`.  The fuel
`m.next + 1` exceeds the length of any chain of distinct live nodes. -/
def LinkedList.find (m : Mem) (s : Option Nat) (v : Int) : Option (Option Nat) := do
  let it ← LinkedList.front m s
  LinkedList.findLoop m v it (m.next + 1)

/-- `LinkedList::erase` (lines 113-116): find the value, then remove. -/
def LinkedList.erase (m : Mem) (s : Option Nat) (v : Int) :
    Option (Bool × Mem × Option Nat) := do
  let I ← LinkedList.find m s v
  LinkedList.remove m s I

/-- `LinkedList::move_to_back` (lines 118-138).  A null argument is an
undefined dereference (`ERR_FAIL_COND` reads `p_I->data`); a back-reference
mismatch is an early return. -/
def LinkedList.move_to_back (m : Mem) (s : Option Nat) (pI : Option Nat) : Option Mem :=
  match pI with
  | none => none
  | some i =>
    match m.elems i with
    | none => none
    | some e =>
      if some e.data ≠ s then some m
      else
        match e.next_ptr with
        | none => some m
        | some _ =>
          match s with
          | none => none
          | some dId =>
            match m.datas dId with
            | none => none
            | some d =>
              let d := if d.first = some i then { d with first := e.next_ptr } else d
              let d := if d.last = some i then { d with last := e.prev_ptr } else d
              do
                let m ← match e.prev_ptr with
                  | some p => do
                      let pe ← m.elems p
                      setE m p { pe with next_ptr := e.next_ptr }
                  | none => some m
                let e1 ← m.elems i
                let m ← match e1.next_ptr with
                  | none => none
                  | some q => do
                      let qe ← m.elems q
                      setE m q { qe with prev_ptr := e1.prev_ptr }
                match d.last with
                | none => none
                | some t => do
                    let te ← m.elems t
                    let m ← setE m t { te with next_ptr := some i }
                    let e2 ← m.elems i
                    let m ← setE m i { e2 with prev_ptr := some t, next_ptr := none }
                    let m ← setD m dId { d with last := some i }
                    some m

/-- `LinkedList::move_to_front` (lines 140-160). -/
def LinkedList.move_to_front (m : Mem) (s : Option Nat) (pI : Option Nat) : Option Mem :=
  match pI with
  | none => none
  | some i =>
    match m.elems i with
    | none => none
    | some e =>
      if some e.data ≠ s then some m
      else
        match e.prev_ptr with
        | none => some m
        | some p =>
          match s with
          | none => none
          | some dId =>
            match m.datas dId with
            | none => none
            | some d =>
              let d := if d.first = some i then { d with first := e.next_ptr } else d
              let d := if d.last = some i then { d with last := e.prev_ptr } else d
              do
                let pe ← m.elems p
                let m ← setE m p { pe with next_ptr := e.next_ptr }
                let e1 ← m.elems i
                let m ← match e1.next_ptr with
                  | some q => do
                      let qe ← m.elems q
                      setE m q { qe with prev_ptr := e1.prev_ptr }
                  | none => some m
                match d.first with
                | none => none
                | some f => do
                    let fe ← m.elems f
                    let m ← setE m f { fe with prev_ptr := some i }
                    let e2 ← m.elems i
                    let m ← setE m i { e2 with next_ptr := some f, prev_ptr := none }
                    let m ← setD m dId { d with first := some i }
                    some m

/-- `LinkedList::move_before` (lines 162-187).  Performs no validation of its
arguments; `none` models the dereference of a null or dangling pointer. -/
def LinkedList.move_before (m : Mem) (s : Option Nat) (pA pB : Option Nat) : Option Mem :=
  match pA with
  | none => none
  | some a =>
    match m.elems a with
    | none => none
    | some ea => do
      let m ← match ea.prev_ptr with
        | some p => do
            let pe ← m.elems p
            setE m p { pe with next_ptr := ea.next_ptr }
        | none => setFirstP m s ea.next_ptr
      let ea1 ← m.elems a
      let m ← match ea1.next_ptr with
        | some q => do
            let qe ← m.elems q
            setE m q { qe with prev_ptr := ea1.prev_ptr }
        | none => setLastP m s ea1.prev_ptr
      let ea2 ← m.elems a
      let m ← setE m a { ea2 with next_ptr := pB }
      match pB with
      | none => do
          let t ← getLastP m s
          let ea3 ← m.elems a
          let m ← setE m a { ea3 with prev_ptr := t }
          setLastP m s (some a)
      | some b => do
          let eb ← m.elems b
          let ea3 ← m.elems a
          let m ← setE m a { ea3 with prev_ptr := eb.prev_ptr }
          let m ← match eb.prev_ptr with
            | some p2 => do
                let pe2 ← m.elems p2
                setE m p2 { pe2 with next_ptr := some a }
            | none => setFirstP m s (some a)
          let eb1 ← m.elems b
          setE m b { eb1 with prev_ptr := some a }

/-- The loop of `LinkedList::clear` (lines 210-214), with fuel; the C++ loop
terminates because each `remove` shrinks the list. -/
def LinkedList.clearLoop (m : Mem) (s : Option Nat) : Nat → Option (Mem × Option Nat)
  | 0 => do
      let f ← LinkedList.front m s
      match f with
      | none => some (m, s)
      | some _ => none
  | fuel + 1 => do
      let f ← LinkedList.front m s
      match f with
      | none => some (m, s)
      | some i => do
          let r ← LinkedList.remove m s (some i)
          LinkedList.clearLoop r.2.1 r.2.2 fuel

/-- `LinkedList::clear` (lines 210-214): remove the front until empty. -/
def LinkedList.clear (m : Mem) (s : Option Nat) : Option (Mem × Option Nat) :=
  LinkedList.clearLoop m s (m.next + 1)

/-- Front-to-back traversal following `next()` (spec §8), with fuel. -/
def traverseNext (m : Mem) : Option Nat → Nat → Option (List Int)
  | none, _ => some []
  | some _, 0 => none
  | some i, fuel + 1 =>
    match m.elems i with
    | none => none
    | some e => do
        let rest ← traverseNext m e.next fuel
        some (e.value :: rest)

/-- Back-to-front traversal following `prev()` (spec §8), with fuel. -/
def traversePrev (m : Mem) : Option Nat → Nat → Option (List Int)
  | none, _ => some []
  | some _, 0 => none
  | some i, fuel + 1 =>
    match m.elems i with
    | none => none
    | some e => do
        let rest ← traversePrev m e.prev fuel
        some (e.value :: rest)

/-- Values visited by iterating `front()` then `next()` until null. -/
def LinkedList.traverseF (m : Mem) (s : Option Nat) : Option (List Int) := do
  let f ← LinkedList.front m s
  traverseNext m f (m.next + 1)

/-- Values visited by iterating `back()` then `prev()` until null. -/
def LinkedList.traverseB (m : Mem) (s : Option Nat) : Option (List Int) := do
  let b ← LinkedList.back m s
  traversePrev m b (m.next + 1)

/-- The empty heap: a freshly constructed `LinkedList` is `(emptyMem, none)`. -/
def emptyMem : Mem := ⟨fun _ => none, fun _ => none, 0⟩

/-- One `push_back` step of `buildList`. -/
def buildStep (acc : Option (Mem × Option Nat)) (v : Int) : Option (Mem × Option Nat) :=
  acc.bind fun ms =>
    (LinkedList.push_back ms.1 ms.2 v).map fun r => (r.1, some r.2.1)

/-- Pushing a sequence of values with `push_back` into a fresh list. -/
def buildList (vs : List Int) : Option (Mem × Option Nat) :=
  vs.foldl buildStep (some (emptyMem, none))

/-! ### Representation predicate -/

/-- Head id of a segment, with a default for the empty segment. -/
def headIdD : List (Nat × Int) → Option Nat → Option Nat
  | [], k => k
  | (i, _) :: _, _ => some i

/-- Last id of a segment, with a default for the empty segment. -/
def lastIdD (k : Option Nat) : List (Nat × Int) → Option Nat
  | [] => k
  | (i, _) :: rest => lastIdD (some i) rest

/-- The doubly linked chain `l` (node ids paired with their values) lies in
`m`, owned by block `dId`: the first node's `prev_ptr` is `prev`, consecutive
nodes are linked both ways, and the last node's `next_ptr` is `nxt`. -/
def chain (m : Mem) (dId : Nat) : Option Nat → List (Nat × Int) → Option Nat → Prop
  | _, [], _ => True
  | prev, (i, v) :: rest, nxt =>
      m.elems i = some ⟨v, prev, headIdD rest nxt, dId⟩ ∧ chain m dId (some i) rest nxt

/-- The storage block `dId` of heap `m` represents the sequence `l`. -/
structure ListRep (m : Mem) (dId : Nat) (l : List (Nat × Int)) : Prop where
  data_eq : m.datas dId = some ⟨headIdD l none, lastIdD none l, (l.length : Int)⟩
  chain_ok : chain m dId none l none
  nodup : (l.map Prod.fst).Nodup
  ids_lt : ∀ p ∈ l, p.1 < m.next
  d_lt : dId < m.next

@[simp] theorem headIdD_nil (k : Option Nat) : headIdD [] k = k := rfl

@[simp] theorem headIdD_cons (i : Nat) (v : Int) (l : List (Nat × Int)) (k : Option Nat) :
    headIdD ((i, v) :: l) k = some i := rfl

@[simp] theorem lastIdD_nil (k : Option Nat) : lastIdD k [] = k := rfl

theorem lastIdD_cons (k : Option Nat) (i : Nat) (v : Int) (l : List (Nat × Int)) :
    lastIdD k ((i, v) :: l) = lastIdD (some i) l := rfl

theorem lastIdD_append (k : Option Nat) (l1 l2 : List (Nat × Int)) :
    lastIdD k (l1 ++ l2) = lastIdD (lastIdD k l1) l2 := by
  induction l1 generalizing k with
  | nil => rfl
  | cons p rest ih => cases p; simp [lastIdD_cons, ih]

@[simp] theorem lastIdD_concat (k : Option Nat) (l : List (Nat × Int)) (i : Nat) (v : Int) :
    lastIdD k (l ++ [(i, v)]) = some i := by
  rw [lastIdD_append]; rfl

theorem chain_nil (m : Mem) (dId : Nat) (prev nxt : Option Nat) :
    chain m dId prev [] nxt := trivial

theorem chain_cons (m : Mem) (dId : Nat) (prev nxt : Option Nat) (i : Nat) (v : Int)
    (l : List (Nat × Int)) :
    chain m dId prev ((i, v) :: l) nxt ↔
      m.elems i = some ⟨v, prev, headIdD l nxt, dId⟩ ∧ chain m dId (some i) l nxt := Iff.rfl

/-- A chain only looks at the heap cells of its own ids. -/
theorem chain_congr (m m' : Mem) (dId : Nat) (l : List (Nat × Int))
    (h : ∀ p ∈ l, m'.elems p.1 = m.elems p.1) :
    ∀ prev nxt, chain m dId prev l nxt → chain m' dId prev l nxt := by
  induction l with
  | nil => intro _ _ _; trivial
  | cons p rest ih =>
    cases p with
    | mk i v =>
      intro prev nxt hc
      rcases hc with ⟨hi, hrest⟩
      refine ⟨?_, ?_⟩
      · rw [h (i, v) (List.mem_cons_self _ _)]; exact hi
      · exact ih (fun q hq => h q (List.mem_cons_of_mem _ hq)) (some i) nxt hrest

/-- Splitting a chain at an append. -/
theorem chain_append (m : Mem) (dId : Nat) (l1 l2 : List (Nat × Int)) :
    ∀ prev nxt, chain m dId prev (l1 ++ l2) nxt ↔
      chain m dId prev l1 (headIdD l2 nxt) ∧ chain m dId (lastIdD prev l1) l2 nxt := by
  induction l1 with
  | nil =>
    intro prev nxt
    simp only [List.nil_append, lastIdD_nil]
    exact ⟨fun h => ⟨trivial, h⟩, fun h => h.2⟩
  | cons p rest ih =>
    cases p with
    | mk i v =>
      intro prev nxt
      simp only [List.cons_append, chain_cons, lastIdD_cons, ih (some i) nxt]
      constructor
      · rintro ⟨hi, h1, h2⟩
        refine ⟨⟨?_, h1⟩, h2⟩
        cases rest <;> simp_all [headIdD]
      · rintro ⟨⟨hi, h1⟩, h2⟩
        refine ⟨?_, h1, h2⟩
        cases rest <;> simp_all [headIdD]

theorem headIdD_append (l1 l2 : List (Nat × Int)) (k : Option Nat) :
    headIdD (l1 ++ l2) k = headIdD l1 (headIdD l2 k) := by
  cases l1 with
  | nil => rfl
  | cons p rest => cases p; rfl

theorem headIdD_some (l : List (Nat × Int)) (i : Nat) :
    ∃ j, headIdD l (some i) = some j := by
  cases l with
  | nil => exact ⟨i, rfl⟩
  | cons p rest => cases p with | mk a b => exact ⟨a, rfl⟩

theorem eq_nil_or_snoc (l : List (Nat × Int)) :
    l = [] ∨ ∃ l₂ i v, l = l₂ ++ [(i, v)] := by
  obtain rfl | ⟨l₂, ⟨i, v⟩, rfl⟩ := l.eq_nil_or_concat
  · exact Or.inl rfl
  · exact Or.inr ⟨l₂, i, v, by simp⟩

theorem nodup_snoc_ids (l : List (Nat × Int)) (n : Nat) (v : Int)
    (hnd : (l.map Prod.fst).Nodup) (hlt : ∀ p ∈ l, p.1 < n) :
    ((l ++ [(n, v)]).map Prod.fst).Nodup := by
  simp only [List.map_append, List.nodup_append]
  refine ⟨hnd, by simp, ?_⟩
  intro a ha hb
  simp only [List.mem_map] at ha
  obtain ⟨p, hp, rfl⟩ := ha
  simp only [List.map_cons, List.map_nil, List.mem_singleton] at hb
  have := hlt p hp
  omega

theorem length_le_next (ids : List Nat) (n : Nat) (hn : ids.Nodup)
    (hlt : ∀ i ∈ ids, i < n) : ids.length ≤ n := by
  have h1 : ids.toFinset.card = ids.length := List.toFinset_card_of_nodup hn
  have h2 : ids.toFinset ⊆ Finset.range n := by
    intro i hi
    simp only [List.mem_toFinset] at hi
    simpa using hlt i hi
  have := Finset.card_le_card h2
  simpa [h1] using this

theorem push_back_rep (m M : Mem) (dId : Nat) (l : List (Nat × Int)) (v : Int) (d' n' : Nat)
    (hr : ListRep m dId l)
    (h : LinkedList.push_back m (some dId) v = some (M, d', n')) :
    d' = dId ∧ n' = m.next ∧ ListRep M dId (l ++ [(m.next, v)]) ∧ M.next = m.next + 1 ∧
      (∀ j, j ≠ m.next → (∀ p ∈ l, j ≠ p.1) → M.elems j = m.elems j) ∧
      (∀ j, j ≠ dId → M.datas j = m.datas j) := by
  obtain rfl | ⟨l₂, t, vt, rfl⟩ := eq_nil_or_snoc l
  case inl =>
    have hd := hr.data_eq
    simp only [headIdD_nil, lastIdD_nil, List.length_nil] at hd
    unfold LinkedList.push_back at h
    simp [hd, setD] at h
    obtain ⟨hM, hd', hn⟩ := h
    subst hd' hn
    subst hM
    refine ⟨rfl, rfl, ⟨?_, ?_, ?_, ?_, ?_⟩, rfl, ?_, ?_⟩
    · simp [headIdD, lastIdD]
    · simp [chain, headIdD]
    · simp
    · simp
    · show dId < m.next + 1
      have := hr.d_lt; omega
    · intro j hj _; simp [hj]
    · intro j hj; simp [hj]
  case inr =>
    have hd := hr.data_eq
    rw [lastIdD_concat] at hd
    have hc := hr.chain_ok
    rw [chain_append] at hc
    obtain ⟨hc2, het, -⟩ := hc
    simp only [headIdD_cons, headIdD_nil] at het hc2
    have htm : ¬ t = m.next := by
      have := hr.ids_lt (t, vt) (by simp)
      omega
    unfold LinkedList.push_back at h
    simp [hd, setE, setD, htm] at h
    obtain ⟨f0, hf0⟩ := headIdD_some l₂ t
    rw [headIdD_append] at h
    simp [hf0, het, htm, hd] at h
    obtain ⟨hM, hd', hn⟩ := h
    subst hd' hn
    subst hM
    refine ⟨rfl, rfl, ⟨?_, ?_, ?_, ?_, ?_⟩, rfl, ?_, ?_⟩
    · simp only [headIdD_append, headIdD_cons, headIdD_nil, hf0, lastIdD_concat,
        List.append_assoc, List.singleton_append, List.length_append, List.length_cons,
        List.length_nil]
      simp [htm, lastIdD_append, lastIdD]
      try push_cast
      try ring
    · rw [List.append_assoc, chain_append, chain_append]
      refine ⟨?_, ?_, ?_⟩
      · refine chain_congr m _ dId l₂ ?_ none _ ?_
        · intro p hp
          have hpm : ¬ p.1 = m.next := by
            have := hr.ids_lt p (by simp [hp]); omega
          have hpt : ¬ p.1 = t := by
            have hnd := hr.nodup
            simp only [List.map_append, List.nodup_append] at hnd
            intro hq
            exact hnd.2.2 (List.mem_map_of_mem Prod.fst hp) (by simp [hq])
          simp [hpm, hpt]
        · exact hc2
      · simp [chain, headIdD]
      · simp [chain, htm, Ne.symm htm, headIdD, lastIdD]
  -- remaining fields
    · exact nodup_snoc_ids _ m.next v hr.nodup hr.ids_lt
    · intro p hp
      show p.1 < m.next + 1
      rcases List.mem_append.mp hp with h1 | h1
      · have := hr.ids_lt p h1; omega
      · rw [List.mem_singleton] at h1; subst h1; simp
    · show dId < m.next + 1
      have := hr.d_lt; omega
    · intro j hj hjl
      have hjt : ¬ j = t := hjl (t, vt) (by simp)
      simp [hj, hjt]
    · intro j hj; simp [hj]

theorem lastIdD_isSome (l : List (Nat × Int)) (i : Nat) :
    ∃ j, lastIdD (some i) l = some j := by
  induction l generalizing i with
  | nil => exact ⟨i, rfl⟩
  | cons p rest ih => cases p with | mk a b => exact ih a

theorem push_back_rep_ex (m : Mem) (dId : Nat) (l : List (Nat × Int)) (v : Int)
    (hr : ListRep m dId l) : (LinkedList.push_back m (some dId) v).isSome := by
  obtain rfl | ⟨l₂, t, vt, rfl⟩ := eq_nil_or_snoc l
  case inl =>
    have hd := hr.data_eq
    simp only [headIdD_nil, lastIdD_nil, List.length_nil] at hd
    unfold LinkedList.push_back
    simp [hd, setD]
  case inr =>
    have hd := hr.data_eq
    rw [lastIdD_concat] at hd
    have hc := hr.chain_ok
    rw [chain_append] at hc
    obtain ⟨-, het, -⟩ := hc
    simp only [headIdD_cons, headIdD_nil] at het
    have htm : ¬ t = m.next := by
      have := hr.ids_lt (t, vt) (by simp)
      omega
    unfold LinkedList.push_back
    simp [hd, het, htm, setE, setD]

theorem nodup_cons_ids (l : List (Nat × Int)) (n : Nat) (v : Int)
    (hnd : (l.map Prod.fst).Nodup) (hlt : ∀ p ∈ l, p.1 < n) :
    (((n, v) :: l).map Prod.fst).Nodup := by
  simp only [List.map_cons, List.nodup_cons]
  refine ⟨?_, hnd⟩
  intro hmem
  obtain ⟨q, hq, hq1⟩ := List.mem_map.mp hmem
  have := hlt q hq
  omega

theorem push_front_rep (m M : Mem) (dId : Nat) (l : List (Nat × Int)) (v : Int) (d' n' : Nat)
    (hr : ListRep m dId l)
    (h : LinkedList.push_front m (some dId) v = some (M, d', n')) :
    d' = dId ∧ n' = m.next ∧ ListRep M dId ((m.next, v) :: l) ∧ M.next = m.next + 1 ∧
      (∀ j, j ≠ m.next → (∀ p ∈ l, j ≠ p.1) → M.elems j = m.elems j) ∧
      (∀ j, j ≠ dId → M.datas j = m.datas j) := by
  cases l with
  | nil =>
    have hd := hr.data_eq
    simp only [headIdD_nil, lastIdD_nil, List.length_nil] at hd
    unfold LinkedList.push_front at h
    simp [hd, setD] at h
    obtain ⟨hM, hd', hn⟩ := h
    subst hd' hn
    subst hM
    refine ⟨rfl, rfl, ⟨?_, ?_, ?_, ?_, ?_⟩, rfl, ?_, ?_⟩
    · simp [headIdD, lastIdD]
    · simp [chain, headIdD]
    · simp
    · simp
    · show dId < m.next + 1
      have := hr.d_lt; omega
    · intro j hj _; simp [hj]
    · intro j hj; simp [hj]
  | cons p rest =>
    obtain ⟨h0, v0⟩ := p
    have hd := hr.data_eq
    rw [headIdD_cons] at hd
    obtain ⟨he0, hcrest⟩ := hr.chain_ok
    have h0m : ¬ h0 = m.next := by
      have := hr.ids_lt (h0, v0) (by simp)
      omega
    obtain ⟨t0, ht0⟩ := lastIdD_isSome rest h0
    have hlast : lastIdD none ((h0, v0) :: rest) = some t0 := by
      rw [lastIdD_cons]; exact ht0
    unfold LinkedList.push_front at h
    rw [hlast] at hd
    simp [hd, he0, h0m, setE, setD] at h
    obtain ⟨hM, hd', hn⟩ := h
    subst hd' hn
    subst hM
    refine ⟨rfl, rfl, ⟨?_, ?_, ?_, ?_, ?_⟩, rfl, ?_, ?_⟩
    · simp [headIdD, lastIdD_cons, hlast, lastIdD, ht0]
      try push_cast
      try ring
    · refine ⟨?_, ?_, ?_⟩
      · simp [headIdD, Ne.symm h0m]
      · simp [headIdD, h0m, Ne.symm h0m]
      · refine chain_congr m _ dId rest ?_ (some h0) none hcrest
        intro p hp
        have hpm : ¬ p.1 = m.next := by
          have := hr.ids_lt p (by simp [hp]); omega
        have hph : ¬ p.1 = h0 := by
          have hnd := hr.nodup
          simp only [List.map_cons, List.nodup_cons] at hnd
          intro hq
          exact hnd.1 (hq ▸ List.mem_map_of_mem Prod.fst hp)
        simp [hpm, hph]
    · exact nodup_cons_ids _ m.next v hr.nodup hr.ids_lt
    · intro p hp
      show p.1 < m.next + 1
      rcases List.mem_cons.mp hp with rfl | h1
      · show m.next < m.next + 1
        omega
      · have := hr.ids_lt p h1; omega
    · show dId < m.next + 1
      have := hr.d_lt; omega
    · intro j hj hjl
      have hjh : ¬ j = h0 := hjl (h0, v0) (by simp)
      simp [hj, hjh]
    · intro j hj; simp [hj]

theorem push_front_rep_ex (m : Mem) (dId : Nat) (l : List (Nat × Int)) (v : Int)
    (hr : ListRep m dId l) : (LinkedList.push_front m (some dId) v).isSome := by
  cases l with
  | nil =>
    have hd := hr.data_eq
    simp only [headIdD_nil, lastIdD_nil, List.length_nil] at hd
    unfold LinkedList.push_front
    simp [hd, setD]
  | cons p rest =>
    obtain ⟨h0, v0⟩ := p
    have hd := hr.data_eq
    rw [headIdD_cons] at hd
    obtain ⟨he0, -⟩ := hr.chain_ok
    have h0m : ¬ h0 = m.next := by
      have := hr.ids_lt (h0, v0) (by simp)
      omega
    unfold LinkedList.push_front
    simp [hd, he0, h0m, setE, setD]

theorem nodup_mid (l1 l2 : List (Nat × Int)) (i : Nat) (v : Int)
    (h : ((l1 ++ (i, v) :: l2).map Prod.fst).Nodup) :
    (∀ p ∈ l1, p.1 ≠ i) ∧ (∀ p ∈ l2, p.1 ≠ i) ∧ (∀ p ∈ l1, ∀ q ∈ l2, p.1 ≠ q.1) ∧
      ((l1 ++ l2).map Prod.fst).Nodup := by
  simp only [List.map_append, List.map_cons, List.nodup_append, List.nodup_cons] at h
  obtain ⟨h1, ⟨hi2, h2⟩, hdisj⟩ := h
  refine ⟨?_, ?_, ?_, ?_⟩
  · intro p hp hpi
    exact hdisj (List.mem_map_of_mem Prod.fst hp) (by simp [hpi])
  · intro p hp hpi
    exact hi2 (hpi ▸ List.mem_map_of_mem Prod.fst hp)
  · intro p hp q hq hpq
    exact hdisj (List.mem_map_of_mem Prod.fst hp)
      (by simp only [List.mem_cons]; exact Or.inr (hpq ▸ List.mem_map_of_mem Prod.fst hq))
  · simp only [List.map_append, List.nodup_append]
    refine ⟨h1, h2, ?_⟩
    intro a ha hb
    exact hdisj ha (by simp only [List.mem_cons]; exact Or.inr hb)

theorem chain_mid_elem (m : Mem) (dId : Nat) (l1 l2 : List (Nat × Int)) (i : Nat) (v : Int)
    (h : chain m dId none (l1 ++ (i, v) :: l2) none) :
    m.elems i = some ⟨v, lastIdD none l1, headIdD l2 none, dId⟩ ∧
      chain m dId none l1 (some i) ∧ chain m dId (some i) l2 none := by
  rw [chain_append] at h
  obtain ⟨hc1, hi, hc2⟩ := h
  exact ⟨hi, by simpa using hc1, hc2⟩

theorem lastIdD_mem (l : List (Nat × Int)) (i j : Nat) (h : lastIdD (some i) l = some j) :
    j = i ∨ j ∈ l.map Prod.fst := by
  induction l generalizing i with
  | nil => simp only [lastIdD_nil, Option.some.injEq] at h; exact Or.inl h.symm
  | cons p rest ih =>
    cases p with
    | mk a b =>
      rw [lastIdD_cons] at h
      rcases ih a h with rfl | hmem
      · exact Or.inr (by simp)
      · exact Or.inr (by simp [hmem])

theorem headIdD_mem (l : List (Nat × Int)) (i j : Nat) (h : headIdD l (some i) = some j) :
    j = i ∨ j ∈ l.map Prod.fst := by
  cases l with
  | nil => simp only [headIdD_nil, Option.some.injEq] at h; exact Or.inl h.symm
  | cons p rest =>
    cases p with
    | mk a b =>
      rw [headIdD_cons] at h
      simp only [Option.some.injEq] at h
      exact Or.inr (by simp [← h])

theorem nodup_append_parts (l1 l2 : List (Nat × Int))
    (h : ((l1 ++ l2).map Prod.fst).Nodup) :
    (l1.map Prod.fst).Nodup ∧ (l2.map Prod.fst).Nodup ∧ ∀ r ∈ l1, ∀ s ∈ l2, r.1 ≠ s.1 := by
  simp only [List.map_append, List.nodup_append] at h
  refine ⟨h.1, h.2.1, ?_⟩
  intro r hrm s hs hrs
  exact h.2.2 (List.mem_map_of_mem Prod.fst hrm) (hrs ▸ List.mem_map_of_mem Prod.fst hs)

theorem erase_rep (m M : Mem) (dId : Nat) (l1 l2 : List (Nat × Int)) (i : Nat) (v : Int)
    (b : Bool)
    (hr : ListRep m dId (l1 ++ (i, v) :: l2))
    (h : ListData.erase m dId (some i) = some (b, M)) :
    b = true ∧ ListRep M dId (l1 ++ l2) ∧ M.elems i = none ∧ M.next = m.next ∧
      (∀ j, (∀ p ∈ l1 ++ (i, v) :: l2, j ≠ p.1) → M.elems j = m.elems j) ∧
      (∀ j, j ≠ dId → M.datas j = m.datas j) := by
  have hd := hr.data_eq
  obtain ⟨ei, hc1, hc2⟩ := chain_mid_elem m dId l1 l2 i v hr.chain_ok
  obtain ⟨hn1, hn2, hn12, hnd'⟩ := nodup_mid l1 l2 i v hr.nodup
  obtain rfl | ⟨l1', p, vp, rfl⟩ := eq_nil_or_snoc l1
  · -- l1 = []
    cases l2 with
    | nil =>
      simp only [headIdD_nil, lastIdD_nil, List.nil_append, headIdD_cons, lastIdD_cons,
        List.length_cons, List.length_nil] at hd ei
      unfold ListData.erase at h
      simp [ei, hd, delE, setD] at h
      obtain ⟨hb, hM⟩ := h
      replace hb : b = true := by simp [← hb]
      subst hM
      refine ⟨hb, ⟨?_, ?_, ?_, ?_, ?_⟩, ?_, rfl, ?_, ?_⟩
      · simp
      · exact trivial
      · simp
      · simp
      · exact hr.d_lt
      · simp
      · intro j hj
        have hji : j ≠ i := hj (i, v) (by simp)
        simp [hji]
      · intro j hj; simp [hj]
    | cons qp l2' =>
      obtain ⟨q, vq⟩ := qp
      simp only [List.nil_append, headIdD_cons, lastIdD_cons, List.length_cons] at hd ei
      obtain ⟨eq2, hc2u⟩ := hc2
      have hqi : ¬ q = i := fun hh => hn2 (q, vq) (by simp) hh
      have hiq : ¬ i = q := fun hh => hqi hh.symm
      obtain ⟨t, ht⟩ := lastIdD_isSome l2' q
      have hti : ¬ t = i := by
        rcases lastIdD_mem l2' q t ht with rfl | hmem
        · exact hqi
        · obtain ⟨r, hrmem, hrt⟩ := List.mem_map.mp hmem
          intro hh
          exact hn2 r (by simp [hrmem]) (by rw [hrt, hh])
      unfold ListData.erase at h
      simp [ei, hd, ht, hti, hqi, hiq, eq2, setE, delE, setD] at h
      obtain ⟨hb, hM⟩ := h
      replace hb : b = true := by simp [← hb]
      subst hM
      refine ⟨hb, ⟨?_, ?_, ?_, ?_, ?_⟩, ?_, rfl, ?_, ?_⟩
      · simp [headIdD_cons, lastIdD_cons, ht]
        try push_cast
        try ring
      · refine ⟨?_, ?_⟩
        · simp [hqi]
        · refine chain_congr m _ dId l2' ?_ (some q) none hc2u
          intro r hr2
          have hri : ¬ r.1 = i := fun hh => hn2 r (by simp [hr2]) hh
          have hrq : ¬ r.1 = q := by
            have hnd := hr.nodup
            simp only [List.nil_append, List.map_cons, List.nodup_cons] at hnd
            intro hh
            exact hnd.2.1 (hh ▸ List.mem_map_of_mem Prod.fst hr2)
          simp [hri, hrq]
      · simpa using hnd'
      · intro r hr2
        show r.1 < m.next
        refine hr.ids_lt r ?_
        simp only [List.nil_append, List.mem_cons] at hr2 ⊢
        tauto
      · exact hr.d_lt
      · simp [hiq]
      · intro j hj
        have hji : j ≠ i := hj (i, v) (by simp)
        have hjq : j ≠ q := hj (q, vq) (by simp)
        simp [hji, hjq]
      · intro j hj; simp [hj]
  · -- l1 = l1' ++ [(p, vp)]
    have hpi : ¬ p = i := fun hh => hn1 (p, vp) (by simp) hh
    have hip : ¬ i = p := fun hh => hpi hh.symm
    rw [chain_append] at hc1
    obtain ⟨hc1u, ep, -⟩ := hc1
    simp only [headIdD_cons, headIdD_nil] at ep hc1u
    obtain ⟨f0, hf0⟩ := headIdD_some l1' p
    have hf0i : ¬ f0 = i := by
      rcases headIdD_mem l1' p f0 hf0 with rfl | hmem
      · exact hpi
      · obtain ⟨r, hrmem, hrt⟩ := List.mem_map.mp hmem
        intro hh
        exact hn1 r (by simp [hrmem]) (by rw [hrt, hh])
    obtain ⟨hl1nd, -, hl1p⟩ := nodup_append_parts l1' [(p, vp)]
      (by simpa using (nodup_append_parts _ _ hr.nodup).1)
    cases l2 with
    | nil =>
      rw [lastIdD_concat] at ei
      have hdl : lastIdD none ((l1' ++ [(p, vp)]) ++ (i, v) :: []) = some i := by
        rw [lastIdD_append]; rfl
      rw [hdl, headIdD_append, headIdD_cons, headIdD_append, headIdD_cons, hf0] at hd
      unfold ListData.erase at h
      simp [ei, hd, hf0i, hpi, hip, ep, setE, delE, setD] at h
      obtain ⟨hb, hM⟩ := h
      replace hb : b = true := by simp [← hb]
      subst hM
      refine ⟨hb, ⟨?_, ?_, ?_, ?_, ?_⟩, ?_, rfl, ?_, ?_⟩
      · simp [headIdD_append, headIdD_cons, hf0, lastIdD_concat]
        try push_cast
        try ring
      · rw [List.append_nil, chain_append]
        refine ⟨?_, ?_⟩
        · refine chain_congr m _ dId l1' ?_ none _ hc1u
          intro r hr2
          have hri : ¬ r.1 = i := fun hh => hn1 r (by simp [hr2]) hh
          have hrp : ¬ r.1 = p := hl1p r hr2 (p, vp) (by simp)
          simp [hri, hrp]
        · simp [chain, hpi]
      · simpa using hnd'
      · intro r hr2
        show r.1 < m.next
        refine hr.ids_lt r ?_
        simp only [List.append_nil] at hr2
        simp only [List.mem_append, List.mem_cons] at hr2 ⊢
        tauto
      · exact hr.d_lt
      · simp [hip]
      · intro j hj
        have hji : j ≠ i := hj (i, v) (by simp)
        have hjp : j ≠ p := hj (p, vp) (by simp)
        simp [hji, hjp]
      · intro j hj; simp [hj]
    | cons qp l2' =>
      obtain ⟨q, vq⟩ := qp
      rw [lastIdD_concat] at ei
      rw [headIdD_cons] at ei
      obtain ⟨eq2, hc2u⟩ := hc2
      have hqi : ¬ q = i := fun hh => hn2 (q, vq) (by simp) hh
      have hiq : ¬ i = q := fun hh => hqi hh.symm
      have hpq : ¬ p = q := hn12 (p, vp) (by simp) (q, vq) (by simp)
      have hqp : ¬ q = p := fun hh => hpq hh.symm
      obtain ⟨t, ht⟩ := lastIdD_isSome l2' q
      have hti : ¬ t = i := by
        rcases lastIdD_mem l2' q t ht with rfl | hmem
        · exact hqi
        · obtain ⟨r, hrmem, hrt⟩ := List.mem_map.mp hmem
          intro hh
          exact hn2 r (by simp [hrmem]) (by rw [hrt, hh])
      have hdl : lastIdD none ((l1' ++ [(p, vp)]) ++ (i, v) :: (q, vq) :: l2') = some t := by
        rw [lastIdD_append, lastIdD_concat, lastIdD_cons, lastIdD_cons]
        exact ht
      rw [hdl, headIdD_append, headIdD_cons, headIdD_append, headIdD_cons, hf0] at hd
      unfold ListData.erase at h
      simp [ei, hd, hf0i, hpi, hip, hqi, hiq, hpq, hqp, hti, ep, eq2, setE, delE, setD] at h
      obtain ⟨hb, hM⟩ := h
      replace hb : b = true := by simp [← hb]
      subst hM
      refine ⟨hb, ⟨?_, ?_, ?_, ?_, ?_⟩, ?_, rfl, ?_, ?_⟩
      · simp [headIdD_append, headIdD_cons, hf0, lastIdD_append, lastIdD_cons, ht]
        try push_cast
        try ring
      · rw [chain_append]
        refine ⟨?_, ?_⟩
        · rw [chain_append]
          refine ⟨?_, ?_⟩
          · refine chain_congr m _ dId l1' ?_ none _ hc1u
            intro r hr2
            have hri : ¬ r.1 = i := fun hh => hn1 r (by simp [hr2]) hh
            have hrp : ¬ r.1 = p := hl1p r hr2 (p, vp) (by simp)
            have hrq : ¬ r.1 = q := hn12 r (by simp [hr2]) (q, vq) (by simp)
            simp [hri, hrp, hrq]
          · simp [chain, headIdD, hpi, hpq]
        · rw [lastIdD_concat]
          refine ⟨?_, ?_⟩
          · simp [headIdD, hqi, hqp]
          · refine chain_congr m _ dId l2' ?_ (some q) none hc2u
            intro r hr2
            have hri : ¬ r.1 = i := fun hh => hn2 r (by simp [hr2]) hh
            have hrp : ¬ r.1 = p := by
              intro hh
              exact hn12 (p, vp) (by simp) r (by simp [hr2]) (by rw [hh])
            have hrq : ¬ r.1 = q := by
              obtain ⟨-, hl2nd, -⟩ := nodup_append_parts (l1' ++ [(p, vp)])
                ((i, v) :: (q, vq) :: l2') hr.nodup
              intro hh
              simp only [List.map_cons, List.nodup_cons] at hl2nd
              exact hl2nd.2.1 (hh ▸ List.mem_map_of_mem Prod.fst hr2)
            simp [hri, hrp, hrq]
      · simpa using hnd'
      · intro r hr2
        show r.1 < m.next
        refine hr.ids_lt r ?_
        simp only [List.mem_append, List.mem_cons] at hr2 ⊢
        tauto
      · exact hr.d_lt
      · simp [hip, hiq]
      · intro j hj
        have hji : j ≠ i := hj (i, v) (by simp)
        have hjp : j ≠ p := hj (p, vp) (by simp)
        have hjq : j ≠ q := hj (q, vq) (by simp)
        simp [hji, hjp, hjq]
      · intro j hj; simp [hj]

theorem erase_rep_ex (m : Mem) (dId : Nat) (l1 l2 : List (Nat × Int)) (i : Nat) (v : Int)
    (hr : ListRep m dId (l1 ++ (i, v) :: l2)) :
    (ListData.erase m dId (some i)).isSome := by
  have hd := hr.data_eq
  obtain ⟨ei, hc1, hc2⟩ := chain_mid_elem m dId l1 l2 i v hr.chain_ok
  obtain ⟨hn1, hn2, hn12, hnd'⟩ := nodup_mid l1 l2 i v hr.nodup
  obtain rfl | ⟨l1', p, vp, rfl⟩ := eq_nil_or_snoc l1
  · cases l2 with
    | nil =>
      simp only [headIdD_nil, lastIdD_nil, List.nil_append, headIdD_cons, lastIdD_cons,
        List.length_cons, List.length_nil] at hd ei
      unfold ListData.erase
      simp [ei, hd, delE, setD]
    | cons qp l2' =>
      obtain ⟨q, vq⟩ := qp
      simp only [List.nil_append, headIdD_cons, lastIdD_cons, List.length_cons] at hd ei
      obtain ⟨eq2, hc2u⟩ := hc2
      have hqi : ¬ q = i := fun hh => hn2 (q, vq) (by simp) hh
      have hiq : ¬ i = q := fun hh => hqi hh.symm
      obtain ⟨t, ht⟩ := lastIdD_isSome l2' q
      have hti : ¬ t = i := by
        rcases lastIdD_mem l2' q t ht with rfl | hmem
        · exact hqi
        · obtain ⟨r, hrmem, hrt⟩ := List.mem_map.mp hmem
          intro hh
          exact hn2 r (by simp [hrmem]) (by rw [hrt, hh])
      unfold ListData.erase
      simp [ei, hd, ht, hti, hqi, hiq, eq2, setE, delE, setD]
  · have hpi : ¬ p = i := fun hh => hn1 (p, vp) (by simp) hh
    have hip : ¬ i = p := fun hh => hpi hh.symm
    rw [chain_append] at hc1
    obtain ⟨hc1u, ep, -⟩ := hc1
    simp only [headIdD_cons, headIdD_nil] at ep hc1u
    obtain ⟨f0, hf0⟩ := headIdD_some l1' p
    have hf0i : ¬ f0 = i := by
      rcases headIdD_mem l1' p f0 hf0 with rfl | hmem
      · exact hpi
      · obtain ⟨r, hrmem, hrt⟩ := List.mem_map.mp hmem
        intro hh
        exact hn1 r (by simp [hrmem]) (by rw [hrt, hh])
    cases l2 with
    | nil =>
      rw [lastIdD_concat] at ei
      have hdl : lastIdD none ((l1' ++ [(p, vp)]) ++ (i, v) :: []) = some i := by
        rw [lastIdD_append]; rfl
      rw [hdl, headIdD_append, headIdD_cons, headIdD_append, headIdD_cons, hf0] at hd
      unfold ListData.erase
      simp [ei, hd, hf0i, hpi, hip, ep, setE, delE, setD]
    | cons qp l2' =>
      obtain ⟨q, vq⟩ := qp
      rw [lastIdD_concat] at ei
      rw [headIdD_cons] at ei
      obtain ⟨eq2, hc2u⟩ := hc2
      have hqi : ¬ q = i := fun hh => hn2 (q, vq) (by simp) hh
      have hiq : ¬ i = q := fun hh => hqi hh.symm
      have hpq : ¬ p = q := hn12 (p, vp) (by simp) (q, vq) (by simp)
      have hqp : ¬ q = p := fun hh => hpq hh.symm
      obtain ⟨t, ht⟩ := lastIdD_isSome l2' q
      have hti : ¬ t = i := by
        rcases lastIdD_mem l2' q t ht with rfl | hmem
        · exact hqi
        · obtain ⟨r, hrmem, hrt⟩ := List.mem_map.mp hmem
          intro hh
          exact hn2 r (by simp [hrmem]) (by rw [hrt, hh])
      have hdl : lastIdD none ((l1' ++ [(p, vp)]) ++ (i, v) :: (q, vq) :: l2') = some t := by
        rw [lastIdD_append, lastIdD_concat, lastIdD_cons, lastIdD_cons]
        exact ht
      rw [hdl, headIdD_append, headIdD_cons, headIdD_append, headIdD_cons, hf0] at hd
      unfold ListData.erase
      simp [ei, hd, hf0i, hpi, hip, hqi, hiq, hpq, hqp, hti, ep, eq2, setE, delE, setD]

theorem remove_rep (m M : Mem) (dId : Nat) (l1 l2 : List (Nat × Int)) (i : Nat) (v : Int)
    (b : Bool) (s' : Option Nat)
    (hr : ListRep m dId (l1 ++ (i, v) :: l2)) (hne : l1 ++ l2 ≠ [])
    (h : LinkedList.remove m (some dId) (some i) = some (b, M, s')) :
    b = true ∧ s' = some dId ∧ ListRep M dId (l1 ++ l2) ∧ M.elems i = none ∧
      M.next = m.next ∧
      (∀ j, (∀ p ∈ l1 ++ (i, v) :: l2, j ≠ p.1) → M.elems j = m.elems j) ∧
      (∀ j, j ≠ dId → M.datas j = m.datas j) := by
  cases heq : ListData.erase m dId (some i) with
  | none => simp [LinkedList.remove, heq, Option.bind] at h
  | some bm =>
    obtain ⟨b₀, M₀⟩ := bm
    simp only [LinkedList.remove, heq] at h
    obtain ⟨hb₀, hrep₀, hei₀, hnx₀, hfe₀, hfd₀⟩ :=
      erase_rep m M₀ dId l1 l2 i v b₀ hr heq
    have hsz : ¬ ((l1.length : Int) + (l2.length : Int) = 0) := by
      have hl : l1.length + l2.length ≠ 0 := by
        intro hh
        apply hne
        rw [← List.length_append] at hh
        exact List.length_eq_zero.mp hh
      exact_mod_cast hl
    simp [hrep₀.data_eq, hsz] at h
    obtain ⟨hb, hM, hs⟩ := h
    subst hM
    refine ⟨by rw [← hb, hb₀], hs.symm, hrep₀, hei₀, hnx₀, hfe₀, hfd₀⟩

theorem remove_single (m M : Mem) (dId : Nat) (i : Nat) (v : Int) (b : Bool) (s' : Option Nat)
    (hr : ListRep m dId [(i, v)])
    (h : LinkedList.remove m (some dId) (some i) = some (b, M, s')) :
    b = true ∧ s' = none ∧ M.elems i = none ∧ M.datas dId = none ∧ M.next = m.next ∧
      (∀ j, j ≠ i → M.elems j = m.elems j) ∧
      (∀ j, j ≠ dId → M.datas j = m.datas j) := by
  cases heq : ListData.erase m dId (some i) with
  | none => simp [LinkedList.remove, heq, Option.bind] at h
  | some bm =>
    obtain ⟨b₀, M₀⟩ := bm
    simp only [LinkedList.remove, heq] at h
    obtain ⟨hb₀, hrep₀, hei₀, hnx₀, hfe₀, hfd₀⟩ :=
      erase_rep m M₀ dId [] [] i v b₀ (by simpa using hr) heq
    have hd₀ := hrep₀.data_eq
    simp only [headIdD_nil, lastIdD_nil, List.length_nil, List.nil_append] at hd₀
    simp [hd₀, delD] at h
    obtain ⟨hb, hM, hs⟩ := h
    subst hM
    refine ⟨by rw [← hb, hb₀], hs.symm, ?_, ?_, hnx₀, ?_, ?_⟩
    · simp [hei₀]
    · simp
    · intro j hj
      simp only [hj, if_false]
      exact hfe₀ j (by simpa using hj)
    · intro j hj
      simp only [hj, if_false]
      exact hfd₀ j hj

theorem remove_rep_ex (m : Mem) (dId : Nat) (l1 l2 : List (Nat × Int)) (i : Nat) (v : Int)
    (hr : ListRep m dId (l1 ++ (i, v) :: l2)) :
    (LinkedList.remove m (some dId) (some i)).isSome := by
  cases heq : ListData.erase m dId (some i) with
  | none =>
    have := erase_rep_ex m dId l1 l2 i v hr
    rw [heq] at this
    simp at this
  | some bm =>
    obtain ⟨b₀, M₀⟩ := bm
    obtain ⟨hb₀, hrep₀, hei₀, hnx₀, hfe₀, hfd₀⟩ :=
      erase_rep m M₀ dId l1 l2 i v b₀ hr heq
    rcases eq_or_ne (l1 ++ l2) [] with hemp | hne
    · have hd₀ := hrep₀.data_eq
      rw [hemp] at hd₀
      simp only [headIdD_nil, lastIdD_nil, List.length_nil] at hd₀
      simp [LinkedList.remove, heq, hd₀, delD]
    · have hsz : ¬ ((l1.length : Int) + (l2.length : Int) = 0) := by
        have hl : l1.length + l2.length ≠ 0 := by
          intro hh
          apply hne
          rw [← List.length_append] at hh
          exact List.length_eq_zero.mp hh
        exact_mod_cast hl
      simp [LinkedList.remove, heq, hrep₀.data_eq, hsz]

theorem pop_back_rep (m M : Mem) (dId : Nat) (l : List (Nat × Int)) (t : Nat) (vt : Int)
    (s' : Option Nat)
    (hr : ListRep m dId (l ++ [(t, vt)]))
    (h : LinkedList.pop_back m (some dId) = some (M, s')) :
    (l = [] → s' = none ∧ M.datas dId = none ∧
      (∀ j, j ≠ dId → M.datas j = m.datas j)) ∧
    (l ≠ [] → s' = some dId ∧ ListRep M dId l) ∧
    M.elems t = none ∧ M.next = m.next ∧
    (∀ j, (∀ p ∈ l ++ [(t, vt)], j ≠ p.1) → M.elems j = m.elems j) := by
  have hd := hr.data_eq
  rw [lastIdD_concat] at hd
  simp only [LinkedList.pop_back, hd] at h
  cases heq : LinkedList.remove m (some dId) (some t) with
  | none => rw [heq] at h; simp at h
  | some r =>
    obtain ⟨b₀, M₀, s₀⟩ := r
    rw [heq] at h
    simp at h
    obtain ⟨hM, hs⟩ := h
    subst hM
    subst hs
    cases l with
    | nil =>
      obtain ⟨hb, hs', hei, hdd, hnx, hfe, hfd⟩ :=
        remove_single m M₀ dId t vt b₀ s₀ (by simpa using hr) heq
      refine ⟨fun _ => ⟨hs', hdd, hfd⟩, fun hcon => absurd rfl hcon, hei, hnx, ?_⟩
      intro j hj
      exact hfe j (hj (t, vt) (by simp))
    | cons x xs =>
      obtain ⟨hb, hs', hrep, hei, hnx, hfe, hfd⟩ :=
        remove_rep m M₀ dId (x :: xs) [] t vt b₀ s₀ (by simpa using hr) (by simp) heq
      refine ⟨fun hcon => absurd hcon (by simp), fun _ => ⟨hs', by simpa using hrep⟩,
        hei, hnx, ?_⟩
      intro j hj
      exact hfe j (by simpa using hj)

theorem pop_back_rep_ex (m : Mem) (dId : Nat) (l : List (Nat × Int)) (t : Nat) (vt : Int)
    (hr : ListRep m dId (l ++ [(t, vt)])) :
    (LinkedList.pop_back m (some dId)).isSome := by
  have hd := hr.data_eq
  rw [lastIdD_concat] at hd
  have hex := remove_rep_ex m dId l [] t vt (by simpa using hr)
  cases heq : LinkedList.remove m (some dId) (some t) with
  | none => rw [heq] at hex; simp at hex
  | some r => simp [LinkedList.pop_back, hd, heq]

theorem pop_front_rep (m M : Mem) (dId : Nat) (l : List (Nat × Int)) (f : Nat) (vf : Int)
    (s' : Option Nat)
    (hr : ListRep m dId ((f, vf) :: l))
    (h : LinkedList.pop_front m (some dId) = some (M, s')) :
    (l = [] → s' = none ∧ M.datas dId = none ∧
      (∀ j, j ≠ dId → M.datas j = m.datas j)) ∧
    (l ≠ [] → s' = some dId ∧ ListRep M dId l) ∧
    M.elems f = none ∧ M.next = m.next ∧
    (∀ j, (∀ p ∈ (f, vf) :: l, j ≠ p.1) → M.elems j = m.elems j) := by
  have hd := hr.data_eq
  rw [headIdD_cons] at hd
  simp only [LinkedList.pop_front, hd] at h
  cases heq : LinkedList.remove m (some dId) (some f) with
  | none => rw [heq] at h; simp at h
  | some r =>
    obtain ⟨b₀, M₀, s₀⟩ := r
    rw [heq] at h
    simp at h
    obtain ⟨hM, hs⟩ := h
    subst hM
    subst hs
    cases l with
    | nil =>
      obtain ⟨hb, hs', hei, hdd, hnx, hfe, hfd⟩ :=
        remove_single m M₀ dId f vf b₀ s₀ (by simpa using hr) heq
      refine ⟨fun _ => ⟨hs', hdd, hfd⟩, fun hcon => absurd rfl hcon, hei, hnx, ?_⟩
      intro j hj
      exact hfe j (hj (f, vf) (by simp))
    | cons x xs =>
      obtain ⟨hb, hs', hrep, hei, hnx, hfe, hfd⟩ :=
        remove_rep m M₀ dId [] (x :: xs) f vf b₀ s₀ (by simpa using hr) (by simp) heq
      refine ⟨fun hcon => absurd hcon (by simp), fun _ => ⟨hs', by simpa using hrep⟩,
        hei, hnx, ?_⟩
      intro j hj
      exact hfe j (by simpa using hj)

theorem pop_front_rep_ex (m : Mem) (dId : Nat) (l : List (Nat × Int)) (f : Nat) (vf : Int)
    (hr : ListRep m dId ((f, vf) :: l)) :
    (LinkedList.pop_front m (some dId)).isSome := by
  have hd := hr.data_eq
  rw [headIdD_cons] at hd
  have hex := remove_rep_ex m dId [] l f vf (by simpa using hr)
  cases heq : LinkedList.remove m (some dId) (some f) with
  | none => rw [heq] at hex; simp at hex
  | some r => simp [LinkedList.pop_front, hd, heq]

theorem findLoop_chain (m : Mem) (dId : Nat) (v : Int) (l : List (Nat × Int)) :
    ∀ (prev : Option Nat) (fuel : Nat),
      chain m dId prev l none → l.length + 1 ≤ fuel →
      LinkedList.findLoop m v (headIdD l none) fuel =
        some ((l.find? fun p => p.2 == v).map Prod.fst) := by
  induction l with
  | nil =>
    intro prev fuel _ hf
    cases fuel with
    | zero => omega
    | succ fy => simp [LinkedList.findLoop]
  | cons p rest ih =>
    obtain ⟨i, w⟩ := p
    intro prev fuel hc hf
    obtain ⟨ei, hcr⟩ := hc
    cases fuel with
    | zero => omega
    | succ fy =>
      rw [headIdD_cons]
      rcases eq_or_ne w v with rfl | hwv
      · simp [LinkedList.findLoop, ei]
      · have := ih (some i) fy hcr (by simp at hf ⊢; omega)
        simp [LinkedList.findLoop, ei, hwv, ListElement.next, this]

theorem find_rep (m : Mem) (dId : Nat) (l : List (Nat × Int)) (v : Int)
    (hr : ListRep m dId l) :
    LinkedList.find m (some dId) v =
      some ((l.find? fun p => p.2 == v).map Prod.fst) := by
  have hlen : l.length ≤ m.next := by
    have := length_le_next (l.map Prod.fst) m.next hr.nodup (by
      intro i hi
      obtain ⟨p, hp, rfl⟩ := List.mem_map.mp hi
      exact hr.ids_lt p hp)
    simpa using this
  have := findLoop_chain m dId v l none (m.next + 1) hr.chain_ok (by omega)
  simp [LinkedList.find, LinkedList.front, hr.data_eq, this]

theorem find_none (m : Mem) (v : Int) :
    LinkedList.find m none v = some none := rfl

theorem find?_first (l1 l2 : List (Nat × Int)) (i : Nat) (v : Int)
    (hno : ∀ p ∈ l1, ¬ (p.2 = v)) :
    ((l1 ++ (i, v) :: l2).find? fun p => p.2 == v) = some (i, v) := by
  induction l1 with
  | nil => simp [List.find?_cons]
  | cons q l1' ih =>
    have hq : ¬ (q.2 = v) := hno q (by simp)
    simp only [List.cons_append]
    rw [List.find?_cons_of_neg _ (by simpa using hq)]
    exact ih fun p hp => hno p (by simp [hp])

theorem traverseNext_chain (m : Mem) (dId : Nat) (l : List (Nat × Int)) :
    ∀ (prev : Option Nat) (fuel : Nat),
      chain m dId prev l none → l.length + 1 ≤ fuel →
      traverseNext m (headIdD l none) fuel = some (l.map Prod.snd) := by
  induction l with
  | nil =>
    intro prev fuel _ hf
    cases fuel with
    | zero => omega
    | succ fy => simp [traverseNext]
  | cons p rest ih =>
    obtain ⟨i, w⟩ := p
    intro prev fuel hc hf
    obtain ⟨ei, hcr⟩ := hc
    cases fuel with
    | zero => omega
    | succ fy =>
      rw [headIdD_cons]
      have := ih (some i) fy hcr (by simp at hf ⊢; omega)
      simp [traverseNext, ei, ListElement.next, this]

theorem traversePrev_chain (m : Mem) (dId : Nat) (l : List (Nat × Int)) :
    ∀ (nxt : Option Nat) (fuel : Nat),
      chain m dId none l nxt → l.length + 1 ≤ fuel →
      traversePrev m (lastIdD none l) fuel = some (l.map Prod.snd).reverse := by
  induction l using List.reverseRecOn with
  | nil =>
    intro nxt fuel _ hf
    cases fuel with
    | zero => omega
    | succ fy => simp [traversePrev]
  | append_singleton l' x ih =>
    obtain ⟨i, w⟩ := x
    intro nxt fuel hc hf
    rw [chain_append] at hc
    obtain ⟨hc1, ex, -⟩ := hc
    simp only [headIdD_cons, headIdD_nil] at ex hc1
    cases fuel with
    | zero => simp at hf
    | succ fy =>
      rw [lastIdD_concat]
      have := ih (some i) fy hc1 (by simp at hf ⊢; omega)
      simp [traversePrev, ex, ListElement.prev, this]

theorem traverseF_rep (m : Mem) (dId : Nat) (l : List (Nat × Int))
    (hr : ListRep m dId l) :
    LinkedList.traverseF m (some dId) = some (l.map Prod.snd) := by
  have hlen : l.length ≤ m.next := by
    have := length_le_next (l.map Prod.fst) m.next hr.nodup (by
      intro i hi
      obtain ⟨p, hp, rfl⟩ := List.mem_map.mp hi
      exact hr.ids_lt p hp)
    simpa using this
  have := traverseNext_chain m dId l none (m.next + 1) hr.chain_ok (by omega)
  simp [LinkedList.traverseF, LinkedList.front, hr.data_eq, this]

theorem traverseB_rep (m : Mem) (dId : Nat) (l : List (Nat × Int))
    (hr : ListRep m dId l) :
    LinkedList.traverseB m (some dId) = some (l.map Prod.snd).reverse := by
  have hlen : l.length ≤ m.next := by
    have := length_le_next (l.map Prod.fst) m.next hr.nodup (by
      intro i hi
      obtain ⟨p, hp, rfl⟩ := List.mem_map.mp hi
      exact hr.ids_lt p hp)
    simpa using this
  have := traversePrev_chain m dId l none (m.next + 1) hr.chain_ok (by omega)
  simp [LinkedList.traverseB, LinkedList.back, hr.data_eq, this]

theorem traverseF_none (m : Mem) : LinkedList.traverseF m none = some [] := rfl

theorem traverseB_none (m : Mem) : LinkedList.traverseB m none = some [] := rfl

theorem erase_value_found (m M : Mem) (dId : Nat) (l1 l2 : List (Nat × Int)) (i : Nat)
    (v : Int) (b : Bool) (s' : Option Nat)
    (hr : ListRep m dId (l1 ++ (i, v) :: l2)) (hno : ∀ p ∈ l1, ¬ (p.2 = v))
    (hne : l1 ++ l2 ≠ [])
    (h : LinkedList.erase m (some dId) v = some (b, M, s')) :
    b = true ∧ s' = some dId ∧ ListRep M dId (l1 ++ l2) ∧ M.elems i = none ∧
      M.next = m.next := by
  have hfind := find_rep m dId _ v hr
  rw [find?_first l1 l2 i v hno] at hfind
  simp only [Option.map_some'] at hfind
  simp only [LinkedList.erase, hfind, Option.some_bind] at h
  obtain ⟨hb, hs, hrep, hei, hnx, -, -⟩ := remove_rep m M dId l1 l2 i v b s' hr hne h
  exact ⟨hb, hs, hrep, hei, hnx⟩

theorem erase_value_found_ex (m : Mem) (dId : Nat) (l1 l2 : List (Nat × Int)) (i : Nat)
    (v : Int)
    (hr : ListRep m dId (l1 ++ (i, v) :: l2)) (hno : ∀ p ∈ l1, ¬ (p.2 = v)) :
    (LinkedList.erase m (some dId) v).isSome := by
  have hfind := find_rep m dId _ v hr
  rw [find?_first l1 l2 i v hno] at hfind
  simp only [Option.map_some'] at hfind
  have hex := remove_rep_ex m dId l1 l2 i v hr
  obtain ⟨r, hre⟩ := Option.isSome_iff_exists.mp hex
  simp [LinkedList.erase, hfind, hre]

theorem erase_value_single (m M : Mem) (dId : Nat) (i : Nat) (v : Int) (b : Bool)
    (s' : Option Nat)
    (hr : ListRep m dId [(i, v)])
    (h : LinkedList.erase m (some dId) v = some (b, M, s')) :
    b = true ∧ s' = none ∧ M.elems i = none ∧ M.datas dId = none ∧ M.next = m.next := by
  have hfind := find_rep m dId _ v hr
  rw [show (List.find? (fun p => p.2 == v) [(i, v)]) = some (i, v) from by simp] at hfind
  simp only [Option.map_some'] at hfind
  simp only [LinkedList.erase, hfind, Option.some_bind] at h
  obtain ⟨hb, hs, hei, hdd, hnx, -, -⟩ :=
    remove_single m M dId i v b s' (by simpa using hr) h
  exact ⟨hb, hs, hei, hdd, hnx⟩

theorem erase_value_absent (m : Mem) (dId : Nat) (l : List (Nat × Int)) (v : Int)
    (hr : ListRep m dId l) (hno : ∀ p ∈ l, ¬ (p.2 = v)) (hne : l ≠ []) :
    LinkedList.erase m (some dId) v = some (false, m, some dId) := by
  have hfind := find_rep m dId l v hr
  have hf : (l.find? fun p => p.2 == v) = none := by
    rw [List.find?_eq_none]
    intro p hp
    simpa using hno p hp
  rw [hf] at hfind
  simp only [Option.map_none'] at hfind
  have hsz : ¬ ((l.length : Int) = 0) := by
    simp only [Nat.cast_eq_zero, List.length_eq_zero]
    exact hne
  simp [LinkedList.erase, hfind, LinkedList.remove, ListData.erase, hr.data_eq, hsz]

theorem erase_value_none (m : Mem) (v : Int) :
    LinkedList.erase m none v = some (false, m, none) := rfl

theorem move_to_back_null (m : Mem) (s : Option Nat) :
    LinkedList.move_to_back m s none = none := rfl

theorem move_to_front_null (m : Mem) (s : Option Nat) :
    LinkedList.move_to_front m s none = none := rfl

theorem move_to_back_mismatch (m : Mem) (s : Option Nat) (i : Nat) (e : ListElement)
    (he : m.elems i = some e) (hd : ¬ (some e.data = s)) :
    LinkedList.move_to_back m s (some i) = some m := by
  simp [LinkedList.move_to_back, he, hd]

theorem move_to_front_mismatch (m : Mem) (s : Option Nat) (i : Nat) (e : ListElement)
    (he : m.elems i = some e) (hd : ¬ (some e.data = s)) :
    LinkedList.move_to_front m s (some i) = some m := by
  simp [LinkedList.move_to_front, he, hd]

theorem move_to_back_last (m : Mem) (dId : Nat) (l : List (Nat × Int)) (t : Nat) (vt : Int)
    (hr : ListRep m dId (l ++ [(t, vt)])) :
    LinkedList.move_to_back m (some dId) (some t) = some m := by
  have hc := hr.chain_ok
  rw [chain_append] at hc
  obtain ⟨-, et, -⟩ := hc
  simp only [headIdD_cons, headIdD_nil] at et
  simp [LinkedList.move_to_back, et]

theorem move_to_front_first (m : Mem) (dId : Nat) (l : List (Nat × Int)) (f : Nat) (vf : Int)
    (hr : ListRep m dId ((f, vf) :: l)) :
    LinkedList.move_to_front m (some dId) (some f) = some m := by
  obtain ⟨ef, -⟩ := hr.chain_ok
  simp [LinkedList.move_to_front, ef]

theorem perm_move_back (l1 l2 : List (Nat × Int)) (i : Nat) (v : Int) :
    (l1 ++ l2 ++ [(i, v)]).Perm (l1 ++ (i, v) :: l2) := by
  have h1 : l1 ++ l2 ++ [(i, v)] = l1 ++ (l2 ++ [(i, v)]) := by simp
  rw [h1]
  exact List.Perm.append_left l1 (List.perm_append_singleton _ _)

theorem nodup_move_back (l1 l2 : List (Nat × Int)) (i : Nat) (v : Int)
    (h : ((l1 ++ (i, v) :: l2).map Prod.fst).Nodup) :
    ((l1 ++ l2 ++ [(i, v)]).map Prod.fst).Nodup :=
  ((perm_move_back l1 l2 i v).map Prod.fst).nodup_iff.mpr h

theorem perm_move_front (l1 l2 : List (Nat × Int)) (i : Nat) (v : Int) :
    ((i, v) :: (l1 ++ l2)).Perm (l1 ++ (i, v) :: l2) :=
  (List.perm_middle).symm

theorem nodup_move_front (l1 l2 : List (Nat × Int)) (i : Nat) (v : Int)
    (h : ((l1 ++ (i, v) :: l2).map Prod.fst).Nodup) :
    (((i, v) :: (l1 ++ l2)).map Prod.fst).Nodup :=
  ((perm_move_front l1 l2 i v).map Prod.fst).nodup_iff.mpr h

set_option maxHeartbeats 1000000 in
theorem move_to_back_rep (m M : Mem) (dId : Nat) (l1 l2 : List (Nat × Int)) (i : Nat)
    (v : Int)
    (hr : ListRep m dId (l1 ++ (i, v) :: l2)) (hne : l2 ≠ [])
    (h : LinkedList.move_to_back m (some dId) (some i) = some M) :
    ListRep M dId (l1 ++ l2 ++ [(i, v)]) ∧ M.next = m.next ∧
      (∀ j, j ≠ dId → M.datas j = m.datas j) := by
  have hd := hr.data_eq
  obtain ⟨ei, hc1, hc2⟩ := chain_mid_elem m dId l1 l2 i v hr.chain_ok
  obtain ⟨hn1, hn2, hn12, hnd2⟩ := nodup_mid l1 l2 i v hr.nodup
  cases l2 with
  | nil => exact absurd rfl hne
  | cons qp l2r =>
    obtain ⟨q, vq⟩ := qp
    obtain ⟨eq2, hc2r⟩ := hc2
    have hqi : ¬ q = i := fun hh => hn2 (q, vq) (by simp) hh
    have hiq : ¬ i = q := fun hh => hqi hh.symm
    obtain ⟨-, hmidnd, -⟩ := nodup_append_parts l1 ((i, v) :: (q, vq) :: l2r) hr.nodup
    have hl2nd : ((q, vq) :: l2r).map Prod.fst |>.Nodup := by
      simp only [List.map_cons, List.nodup_cons] at hmidnd ⊢
      exact hmidnd.2
    obtain rfl | ⟨l1', p, vp, rfl⟩ := eq_nil_or_snoc l1
    · -- l1 = []
      obtain rfl | ⟨l2m, t, vt, rfl⟩ := eq_nil_or_snoc l2r
      · -- [(i, v), (q, vq)]
        simp only [List.nil_append, headIdD_cons, headIdD_nil, lastIdD_cons, lastIdD_nil,
          List.length_cons, List.length_nil] at hd ei eq2
        unfold LinkedList.move_to_back at h
        simp [ei, hd, eq2, hqi, hiq, setE, setD] at h
        subst h
        refine ⟨⟨?_, ?_, ?_, ?_, ?_⟩, rfl, ?_⟩
        · simp [lastIdD]
        · simp [chain, headIdD, hqi, hiq]
        · have := nodup_move_back [] [(q, vq)] i v hr.nodup
          simpa using this
        · intro r hrm
          show r.1 < m.next
          refine hr.ids_lt r ?_
          simp only [List.nil_append, List.mem_append, List.mem_cons] at hrm ⊢
          tauto
        · exact hr.d_lt
        · intro j hj; simp [hj]
      · -- [(i, v), (q, vq)] ++ l2m ++ [(t, vt)]
        rw [chain_append] at hc2r
        obtain ⟨hc2m, et, -⟩ := hc2r
        simp only [List.nil_append, headIdD_cons, headIdD_nil, headIdD_append, lastIdD_cons,
          lastIdD_nil, lastIdD_concat, List.length_cons, List.length_append,
          List.length_nil] at hd ei eq2 et hc2m
        have hti : ¬ t = i := fun hh => hn2 (t, vt) (by simp) hh
        have hit : ¬ i = t := fun hh => hti hh.symm
        have htq : ¬ t = q := by
          simp only [List.map_cons, List.nodup_cons] at hl2nd
          intro hh
          exact hl2nd.1 (hh ▸ List.mem_map_of_mem Prod.fst
            (by simp : (t, vt) ∈ l2m ++ [(t, vt)]))
        have hqt : ¬ q = t := fun hh => htq hh.symm
        unfold LinkedList.move_to_back at h
        simp [ei, hd, eq2, et, hqi, hiq, hti, hit, htq, hqt, setE, setD] at h
        subst h
        refine ⟨⟨?_, ?_, ?_, ?_, ?_⟩, rfl, ?_⟩
        · simp [headIdD, headIdD_append, lastIdD_append, lastIdD_cons, lastIdD]
          try push_cast
          try ring
        · refine ⟨?_, ?_⟩
          · simp [headIdD_append, headIdD_cons, hqi, hqt]
          · simp only [List.append_eq]
            rw [List.append_assoc, chain_append]
            refine ⟨?_, ?_⟩
            · refine chain_congr m _ dId l2m ?_ (some q) _ ?_
              · intro r hrm
                have hri : ¬ r.1 = i := fun hh => hn2 r (by simp [hrm]) hh
                have hrq : ¬ r.1 = q := by
                  simp only [List.map_cons, List.nodup_cons] at hl2nd
                  intro hh
                  exact hl2nd.1 (hh ▸ List.mem_map_of_mem Prod.fst
                    (by simp [hrm] : r ∈ l2m ++ [(t, vt)]))
                have hrt : ¬ r.1 = t := by
                  obtain ⟨-, -, hdisj⟩ := nodup_append_parts l2m [(t, vt)] (by
                    simp only [List.map_cons, List.nodup_cons] at hl2nd
                    exact hl2nd.2)
                  exact fun hh => hdisj r hrm (t, vt) (by simp) hh
                simp [hri, hrq, hrt]
              · simpa using hc2m
            · simp [chain, headIdD, lastIdD, hti, hit, htq]
        · have := nodup_move_back [] ((q, vq) :: (l2m ++ [(t, vt)])) i v hr.nodup
          simpa using this
        · intro r hrm
          show r.1 < m.next
          refine hr.ids_lt r ?_
          simp only [List.nil_append, List.mem_append, List.mem_cons] at hrm ⊢
          tauto
        · exact hr.d_lt
        · intro j hj; simp [hj]
    · -- l1 = l1' ++ [(p, vp)]
      rw [chain_append] at hc1
      obtain ⟨hc1m, ep, -⟩ := hc1
      have hpi : ¬ p = i := fun hh => hn1 (p, vp) (by simp) hh
      have hip : ¬ i = p := fun hh => hpi hh.symm
      have hpq : ¬ p = q := hn12 (p, vp) (by simp) (q, vq) (by simp)
      have hqp : ¬ q = p := fun hh => hpq hh.symm
      obtain ⟨f0, hf0⟩ := headIdD_some l1' p
      have hf0i : ¬ f0 = i := by
        rcases headIdD_mem l1' p f0 hf0 with rfl | hmem
        · exact hpi
        · obtain ⟨r, hrmem, hrt⟩ := List.mem_map.mp hmem
          intro hh
          exact hn1 r (by simp [hrmem]) (by rw [hrt, hh])
      obtain ⟨hl1nd, -, hl1p⟩ := nodup_append_parts l1' [(p, vp)]
        (nodup_append_parts _ _ hr.nodup).1
      obtain rfl | ⟨l2m, t, vt, rfl⟩ := eq_nil_or_snoc l2r
      · -- l1' ++ [(p, vp), (i, v), (q, vq)]
        simp only [headIdD_cons, headIdD_nil, headIdD_append, hf0, lastIdD_cons, lastIdD_nil,
          lastIdD_concat, lastIdD_append, List.length_cons, List.length_append, List.length_nil,
          List.nil_append] at hd ei eq2 ep hc1m
        unfold LinkedList.move_to_back at h
        simp [ei, hd, eq2, ep, hqi, hiq, hpi, hip, hpq, hqp, hf0i, setE, setD] at h
        subst h
        refine ⟨⟨?_, ?_, ?_, ?_, ?_⟩, rfl, ?_⟩
        · simp [headIdD_append, headIdD_cons, hf0, lastIdD_append, lastIdD_cons]
          try push_cast
          try ring
        · rw [chain_append]
          refine ⟨?_, ?_⟩
          · rw [chain_append]
            refine ⟨?_, ?_⟩
            · rw [chain_append]
              refine ⟨?_, ?_⟩
              · refine chain_congr m _ dId l1' ?_ none _ ?_
                · intro r hrm
                  have hri : ¬ r.1 = i := fun hh => hn1 r (by simp [hrm]) hh
                  have hrq : ¬ r.1 = q := fun hh => hn12 r (by simp [hrm]) (q, vq) (by simp) hh
                  have hrp : ¬ r.1 = p := fun hh => hl1p r hrm (p, vp) (by simp) hh
                  simp [hri, hrq, hrp]
                · simpa using hc1m
              · simp [chain, headIdD, lastIdD, hpi, hpq]
            · simp [chain, headIdD, lastIdD, lastIdD_append, hqi, hqp]
          · simp [chain, headIdD, lastIdD, lastIdD_append, lastIdD_cons, hiq, hip]
        · have := nodup_move_back (l1' ++ [(p, vp)]) [(q, vq)] i v hr.nodup
          simpa using this
        · intro r hrm
          show r.1 < m.next
          refine hr.ids_lt r ?_
          simp only [List.mem_append, List.mem_cons] at hrm ⊢
          tauto
        · exact hr.d_lt
        · intro j hj; simp [hj]
      · -- l1' ++ [(p, vp)] ++ (i, v) :: (q, vq) :: l2m ++ [(t, vt)]
        rw [chain_append] at hc2r
        obtain ⟨hc2m, et, -⟩ := hc2r
        simp only [headIdD_cons, headIdD_nil, headIdD_append, hf0, lastIdD_cons, lastIdD_nil,
          lastIdD_concat, lastIdD_append, List.length_cons, List.length_append, List.length_nil,
          List.nil_append] at hd ei eq2 ep et hc1m hc2m
        have hti : ¬ t = i := fun hh => hn2 (t, vt) (by simp) hh
        have hit : ¬ i = t := fun hh => hti hh.symm
        have htq : ¬ t = q := by
          simp only [List.map_cons, List.nodup_cons] at hl2nd
          intro hh
          exact hl2nd.1 (hh ▸ List.mem_map_of_mem Prod.fst
            (by simp : (t, vt) ∈ l2m ++ [(t, vt)]))
        have hqt : ¬ q = t := fun hh => htq hh.symm
        have htp : ¬ t = p := fun hh =>
          hn12 (p, vp) (by simp) (t, vt) (by simp) hh.symm
        have hpt : ¬ p = t := fun hh => htp hh.symm
        unfold LinkedList.move_to_back at h
        simp [ei, hd, eq2, ep, et, hqi, hiq, hpi, hip, hpq, hqp, hti, hit, htq, hqt,
          htp, hpt, hf0i, setE, setD] at h
        subst h
        refine ⟨⟨?_, ?_, ?_, ?_, ?_⟩, rfl, ?_⟩
        · simp [headIdD_append, headIdD_cons, hf0, lastIdD_append, lastIdD_cons]
          try push_cast
          try ring
        · rw [chain_append]
          refine ⟨?_, ?_⟩
          · rw [chain_append]
            refine ⟨?_, ?_⟩
            · rw [chain_append]
              refine ⟨?_, ?_⟩
              · refine chain_congr m _ dId l1' ?_ none _ ?_
                · intro r hrm
                  have hri : ¬ r.1 = i := fun hh => hn1 r (by simp [hrm]) hh
                  have hrq : ¬ r.1 = q := fun hh => hn12 r (by simp [hrm]) (q, vq) (by simp) hh
                  have hrp : ¬ r.1 = p := fun hh => hl1p r hrm (p, vp) (by simp) hh
                  have hrt : ¬ r.1 = t := fun hh => hn12 r (by simp [hrm]) (t, vt) (by simp) hh
                  simp [hri, hrq, hrp, hrt]
                · simpa using hc1m
              · simp [chain, headIdD, headIdD_append, headIdD_cons, lastIdD, hpi, hpq, hpt]
            · refine ⟨?_, ?_⟩
              · simp [headIdD_append, headIdD_cons, hqi, hqt, hqp]
              · rw [chain_append]
                refine ⟨?_, ?_⟩
                · refine chain_congr m _ dId l2m ?_ (some q) _ ?_
                  · intro r hrm
                    have hri : ¬ r.1 = i := fun hh => hn2 r (by simp [hrm]) hh
                    have hrq : ¬ r.1 = q := by
                      simp only [List.map_cons, List.nodup_cons] at hl2nd
                      intro hh
                      exact hl2nd.1 (hh ▸ List.mem_map_of_mem Prod.fst
                        (by simp [hrm] : r ∈ l2m ++ [(t, vt)]))
                    have hrt : ¬ r.1 = t := by
                      obtain ⟨-, -, hdisj⟩ := nodup_append_parts l2m [(t, vt)] (by
                        simp only [List.map_cons, List.nodup_cons] at hl2nd
                        exact hl2nd.2)
                      exact fun hh => hdisj r hrm (t, vt) (by simp) hh
                    have hrp : ¬ r.1 = p := fun hh =>
                      hn12 (p, vp) (by simp) r (by simp [hrm]) hh.symm
                    simp [hri, hrq, hrt, hrp]
                  · simpa using hc2m
                · simp [chain, headIdD, lastIdD, hti, hit, htq, htp]
          · have hsh : lastIdD none (l1' ++ [(p, vp)] ++ (q, vq) :: (l2m ++ [(t, vt)])) =
                some t := by
              simp [lastIdD_append, lastIdD_cons]
            rw [hsh]
            simp [chain, headIdD, hiq, hip, hit]
        · have := nodup_move_back (l1' ++ [(p, vp)]) ((q, vq) :: (l2m ++ [(t, vt)])) i v
            hr.nodup
          simpa using this
        · intro r hrm
          show r.1 < m.next
          refine hr.ids_lt r ?_
          simp only [List.mem_append, List.mem_cons] at hrm ⊢
          tauto
        · exact hr.d_lt
        · intro j hj; simp [hj]

set_option maxHeartbeats 1000000 in
theorem move_to_front_rep (m M : Mem) (dId : Nat) (l1 l2 : List (Nat × Int)) (i : Nat)
    (v : Int)
    (hr : ListRep m dId (l1 ++ (i, v) :: l2)) (hne : l1 ≠ [])
    (h : LinkedList.move_to_front m (some dId) (some i) = some M) :
    ListRep M dId ((i, v) :: (l1 ++ l2)) ∧ M.next = m.next ∧
      (∀ j, j ≠ dId → M.datas j = m.datas j) := by
  have hd := hr.data_eq
  obtain ⟨ei, hc1, hc2⟩ := chain_mid_elem m dId l1 l2 i v hr.chain_ok
  obtain ⟨hn1, hn2, hn12, hnd2⟩ := nodup_mid l1 l2 i v hr.nodup
  cases l1 with
  | nil => exact absurd rfl hne
  | cons fp l1r =>
    obtain ⟨f, vf⟩ := fp
    obtain ⟨ef, hc1r⟩ := hc1
    have hfi : ¬ f = i := fun hh => hn1 (f, vf) (by simp) hh
    have hif : ¬ i = f := fun hh => hfi hh.symm
    obtain ⟨-, hl1nd, -⟩ := nodup_append_parts [(f, vf)] (l1r ++ (i, v) :: l2) (by
      have := hr.nodup
      simpa using this)
    obtain rfl | ⟨l1m, p, vp, rfl⟩ := eq_nil_or_snoc l1r
    · -- l1 = [(f, vf)]; the predecessor of i is f itself
      cases l2 with
      | nil =>
        simp only [List.cons_append, List.nil_append, headIdD_cons, headIdD_nil, lastIdD_cons,
          lastIdD_nil, List.length_cons, List.length_nil] at hd ei ef
        unfold LinkedList.move_to_front at h
        simp [ei, hd, ef, hfi, hif, setE, setD] at h
        subst h
        refine ⟨⟨?_, ?_, ?_, ?_, ?_⟩, rfl, ?_⟩
        · simp [lastIdD]
        · simp [chain, headIdD, hfi, hif]
        · have := nodup_move_front [(f, vf)] [] i v hr.nodup
          simpa using this
        · intro r hrm
          show r.1 < m.next
          refine hr.ids_lt r ?_
          simp only [List.cons_append, List.nil_append, List.mem_cons] at hrm ⊢
          tauto
        · exact hr.d_lt
        · intro j hj; simp [hj]
      | cons qp l2' =>
        obtain ⟨q, vq⟩ := qp
        obtain ⟨eq2, hc2r⟩ := hc2
        have hqi : ¬ q = i := fun hh => hn2 (q, vq) (by simp) hh
        have hiq : ¬ i = q := fun hh => hqi hh.symm
        have hqf : ¬ q = f := fun hh => (hn12 (f, vf) (by simp) (q, vq) (by simp)) hh.symm
        have hfq : ¬ f = q := fun hh => hqf hh.symm
        obtain ⟨t, ht⟩ := lastIdD_isSome l2' q
        have hti : ¬ t = i := by
          rcases lastIdD_mem l2' q t ht with rfl | hmem
          · exact hqi
          · obtain ⟨r, hrmem, hrt⟩ := List.mem_map.mp hmem
            intro hh
            exact hn2 r (by simp [hrmem]) (by rw [hrt, hh])
        simp only [List.cons_append, List.nil_append, headIdD_cons, headIdD_nil, lastIdD_cons,
          lastIdD_nil, ht, List.length_cons, List.length_nil] at hd ei ef eq2
        unfold LinkedList.move_to_front at h
        simp [ei, hd, ef, eq2, hfi, hif, hqi, hiq, hqf, hfq, hti, setE, setD] at h
        subst h
        refine ⟨⟨?_, ?_, ?_, ?_, ?_⟩, rfl, ?_⟩
        · simp [lastIdD, lastIdD_cons, ht]
        · refine ⟨?_, ?_, ?_⟩
          · simp [headIdD, hif, hqi, Ne.symm hfi]
          · simp [headIdD, headIdD_cons, hfi, hfq]
          · refine ⟨?_, ?_⟩
            · simp [headIdD, hqi, hqf]
            · refine chain_congr m _ dId l2' ?_ (some q) none hc2r
              intro r hrm
              have hri : ¬ r.1 = i := fun hh => hn2 r (by simp [hrm]) hh
              have hrf : ¬ r.1 = f := fun hh =>
                (hn12 (f, vf) (by simp) r (by simp [hrm])) hh.symm
              have hrq : ¬ r.1 = q := by
                have hnd := hnd2
                simp only [List.nil_append, List.cons_append, List.map_cons,
                  List.nodup_cons] at hnd
                intro hh
                exact hnd.2.1 (hh ▸ List.mem_map_of_mem Prod.fst hrm)
              simp [hri, hrf, hrq]
        · have := nodup_move_front [(f, vf)] ((q, vq) :: l2') i v hr.nodup
          simpa using this
        · intro r hrm
          show r.1 < m.next
          refine hr.ids_lt r ?_
          simp only [List.cons_append, List.nil_append, List.mem_cons] at hrm ⊢
          tauto
        · exact hr.d_lt
        · intro j hj; simp [hj]
    · -- l1 = (f, vf) :: l1m ++ [(p, vp)]
      obtain ⟨-, -, hdisjF⟩ := nodup_append_parts [(f, vf)] ((l1m ++ [(p, vp)]) ++ (i, v) :: l2)
        (by have := hr.nodup; simpa using this)
      rw [chain_append] at hc1r
      obtain ⟨hc1m, ep, -⟩ := hc1r
      have hpi : ¬ p = i := fun hh => hn1 (p, vp) (by simp) hh
      have hip : ¬ i = p := fun hh => hpi hh.symm
      have hfp : ¬ f = p := fun hh =>
        hdisjF (f, vf) (by simp) (p, vp) (by simp) hh
      have hpf : ¬ p = f := fun hh => hfp hh.symm
      obtain ⟨hl1mnd, -, hl1mp⟩ := nodup_append_parts l1m [(p, vp)]
        (nodup_append_parts (l1m ++ [(p, vp)]) ((i, v) :: l2) hl1nd).1
      cases l2 with
      | nil =>
        simp only [List.cons_append, List.nil_append, headIdD_cons, headIdD_nil,
          headIdD_append, lastIdD_cons, lastIdD_nil, lastIdD_concat, lastIdD_append,
          List.length_cons, List.length_nil, List.length_append] at hd ei ef ep
        unfold LinkedList.move_to_front at h
        simp [ei, hd, ef, ep, hfi, hif, hpi, hip, hpf, hfp, setE, setD] at h
        subst h
        refine ⟨⟨?_, ?_, ?_, ?_, ?_⟩, rfl, ?_⟩
        · simp [lastIdD_cons, lastIdD_append, lastIdD]
          try push_cast
          try ring
        · refine ⟨?_, ?_⟩
          · simp [headIdD, hif, Ne.symm hfi, hip]
          · refine ⟨?_, ?_⟩
            · simp [headIdD_append, headIdD_cons, hfi, hfp]
            · simp only [List.append_eq, List.append_nil]
              rw [chain_append]
              refine ⟨?_, ?_⟩
              · refine chain_congr m _ dId l1m ?_ (some f) _ ?_
                · intro r hrm
                  have hri : ¬ r.1 = i := fun hh => hn1 r (by simp [hrm]) hh
                  have hrf : ¬ r.1 = f := fun hh =>
                    hdisjF (f, vf) (by simp) r (by simp [hrm]) hh.symm
                  have hrp : ¬ r.1 = p := fun hh => hl1mp r hrm (p, vp) (by simp) hh
                  simp [hri, hrf, hrp]
                · simpa using hc1m
              · simp [chain, headIdD, lastIdD, hpi, hpf]
        · have := nodup_move_front ((f, vf) :: (l1m ++ [(p, vp)])) [] i v hr.nodup
          simpa using this
        · intro r hrm
          show r.1 < m.next
          refine hr.ids_lt r ?_
          simp only [List.cons_append, List.mem_cons, List.mem_append] at hrm ⊢
          tauto
        · exact hr.d_lt
        · intro j hj; simp [hj]
      | cons qp l2' =>
        obtain ⟨q, vq⟩ := qp
        obtain ⟨eq2, hc2r⟩ := hc2
        have hqi : ¬ q = i := fun hh => hn2 (q, vq) (by simp) hh
        have hiq : ¬ i = q := fun hh => hqi hh.symm
        have hqf : ¬ q = f := fun hh => (hn12 (f, vf) (by simp) (q, vq) (by simp)) hh.symm
        have hfq : ¬ f = q := fun hh => hqf hh.symm
        have hqp : ¬ q = p := fun hh => (hn12 (p, vp) (by simp) (q, vq) (by simp)) hh.symm
        have hpq : ¬ p = q := fun hh => hqp hh.symm
        obtain ⟨t, ht⟩ := lastIdD_isSome l2' q
        have hti : ¬ t = i := by
          rcases lastIdD_mem l2' q t ht with rfl | hmem
          · exact hqi
          · obtain ⟨r, hrmem, hrt⟩ := List.mem_map.mp hmem
            intro hh
            exact hn2 r (by simp [hrmem]) (by rw [hrt, hh])
        simp only [List.cons_append, List.nil_append, headIdD_cons, headIdD_nil,
          headIdD_append, lastIdD_cons, lastIdD_nil, lastIdD_concat, lastIdD_append, ht,
          List.length_cons, List.length_nil, List.length_append] at hd ei ef ep eq2
        unfold LinkedList.move_to_front at h
        simp [ei, hd, ef, ep, eq2, hfi, hif, hpi, hip, hpf, hfp, hqi, hiq, hqf, hfq,
          hqp, hpq, hti, setE, setD] at h
        subst h
        refine ⟨⟨?_, ?_, ?_, ?_, ?_⟩, rfl, ?_⟩
        · simp [lastIdD_cons, lastIdD_append, lastIdD, ht]
          try push_cast
          try ring
        · refine ⟨?_, ?_⟩
          · simp [headIdD, hif, Ne.symm hfi, hip, hiq]
          · refine ⟨?_, ?_⟩
            · simp [headIdD_append, headIdD_cons, hfi, hfp, hfq]
            · simp only [List.append_eq]
              rw [List.append_assoc, chain_append]
              refine ⟨?_, ?_⟩
              · refine chain_congr m _ dId l1m ?_ (some f) _ ?_
                · intro r hrm
                  have hri : ¬ r.1 = i := fun hh => hn1 r (by simp [hrm]) hh
                  have hrf : ¬ r.1 = f := fun hh =>
                    hdisjF (f, vf) (by simp) r (by simp [hrm]) hh.symm
                  have hrp : ¬ r.1 = p := fun hh => hl1mp r hrm (p, vp) (by simp) hh
                  have hrq : ¬ r.1 = q := fun hh =>
                    hn12 r (by simp [hrm]) (q, vq) (by simp) hh
                  simp [hri, hrf, hrp, hrq]
                · simpa using hc1m
              · refine ⟨?_, ?_⟩
                · simp [headIdD, headIdD_append, headIdD_cons, lastIdD, hpi, hpf, hpq]
                · refine ⟨?_, ?_⟩
                  · simp [headIdD, hqi, hqf, hqp]
                  · refine chain_congr m _ dId l2' ?_ (some q) none hc2r
                    intro r hrm
                    have hri : ¬ r.1 = i := fun hh => hn2 r (by simp [hrm]) hh
                    have hrf : ¬ r.1 = f := fun hh =>
                      hdisjF (f, vf) (by simp) r (by simp [hrm]) hh.symm
                    have hrp : ¬ r.1 = p := fun hh =>
                      hn12 (p, vp) (by simp) r (by simp [hrm]) hh.symm
                    have hrq : ¬ r.1 = q := by
                      obtain ⟨-, hcnd, -⟩ := nodup_append_parts (l1m ++ [(p, vp)])
                        ((i, v) :: (q, vq) :: l2') hl1nd
                      simp only [List.map_cons, List.nodup_cons] at hcnd
                      intro hh
                      exact hcnd.2.1 (hh ▸ List.mem_map_of_mem Prod.fst hrm)
                    simp [hri, hrf, hrp, hrq]
        · have := nodup_move_front ((f, vf) :: (l1m ++ [(p, vp)])) ((q, vq) :: l2') i v
            hr.nodup
          simpa using this
        · intro r hrm
          show r.1 < m.next
          refine hr.ids_lt r ?_
          simp only [List.cons_append, List.mem_cons, List.mem_append] at hrm ⊢
          tauto
        · exact hr.d_lt
        · intro j hj; simp [hj]

set_option maxHeartbeats 1000000 in
theorem move_to_back_rep_ex (m : Mem) (dId : Nat) (l1 l2 : List (Nat × Int)) (i : Nat)
    (v : Int)
    (hr : ListRep m dId (l1 ++ (i, v) :: l2)) (hne : l2 ≠ []) :
    (LinkedList.move_to_back m (some dId) (some i)).isSome := by
  have hd := hr.data_eq
  obtain ⟨ei, hc1, hc2⟩ := chain_mid_elem m dId l1 l2 i v hr.chain_ok
  obtain ⟨hn1, hn2, hn12, hnd2⟩ := nodup_mid l1 l2 i v hr.nodup
  cases l2 with
  | nil => exact absurd rfl hne
  | cons qp l2r =>
    obtain ⟨q, vq⟩ := qp
    obtain ⟨eq2, hc2r⟩ := hc2
    have hqi : ¬ q = i := fun hh => hn2 (q, vq) (by simp) hh
    have hiq : ¬ i = q := fun hh => hqi hh.symm
    obtain ⟨-, hmidnd, -⟩ := nodup_append_parts l1 ((i, v) :: (q, vq) :: l2r) hr.nodup
    have hl2nd : ((q, vq) :: l2r).map Prod.fst |>.Nodup := by
      simp only [List.map_cons, List.nodup_cons] at hmidnd ⊢
      exact hmidnd.2
    obtain rfl | ⟨l1', p, vp, rfl⟩ := eq_nil_or_snoc l1
    · -- l1 = []
      obtain rfl | ⟨l2m, t, vt, rfl⟩ := eq_nil_or_snoc l2r
      · -- [(i, v), (q, vq)]
        simp only [List.nil_append, headIdD_cons, headIdD_nil, lastIdD_cons, lastIdD_nil,
          List.length_cons, List.length_nil] at hd ei eq2
        unfold LinkedList.move_to_back
        simp [ei, hd, eq2, hqi, hiq, setE, setD]
      · -- [(i, v), (q, vq)] ++ l2m ++ [(t, vt)]
        rw [chain_append] at hc2r
        obtain ⟨hc2m, et, -⟩ := hc2r
        simp only [List.nil_append, headIdD_cons, headIdD_nil, headIdD_append, lastIdD_cons,
          lastIdD_nil, lastIdD_concat, List.length_cons, List.length_append,
          List.length_nil] at hd ei eq2 et hc2m
        have hti : ¬ t = i := fun hh => hn2 (t, vt) (by simp) hh
        have hit : ¬ i = t := fun hh => hti hh.symm
        have htq : ¬ t = q := by
          simp only [List.map_cons, List.nodup_cons] at hl2nd
          intro hh
          exact hl2nd.1 (hh ▸ List.mem_map_of_mem Prod.fst
            (by simp : (t, vt) ∈ l2m ++ [(t, vt)]))
        have hqt : ¬ q = t := fun hh => htq hh.symm
        unfold LinkedList.move_to_back
        simp [ei, hd, eq2, et, hqi, hiq, hti, hit, htq, hqt, setE, setD]
    · -- l1 = l1' ++ [(p, vp)]
      rw [chain_append] at hc1
      obtain ⟨hc1m, ep, -⟩ := hc1
      have hpi : ¬ p = i := fun hh => hn1 (p, vp) (by simp) hh
      have hip : ¬ i = p := fun hh => hpi hh.symm
      have hpq : ¬ p = q := hn12 (p, vp) (by simp) (q, vq) (by simp)
      have hqp : ¬ q = p := fun hh => hpq hh.symm
      obtain ⟨f0, hf0⟩ := headIdD_some l1' p
      have hf0i : ¬ f0 = i := by
        rcases headIdD_mem l1' p f0 hf0 with rfl | hmem
        · exact hpi
        · obtain ⟨r, hrmem, hrt⟩ := List.mem_map.mp hmem
          intro hh
          exact hn1 r (by simp [hrmem]) (by rw [hrt, hh])
      obtain ⟨hl1nd, -, hl1p⟩ := nodup_append_parts l1' [(p, vp)]
        (nodup_append_parts _ _ hr.nodup).1
      obtain rfl | ⟨l2m, t, vt, rfl⟩ := eq_nil_or_snoc l2r
      · -- l1' ++ [(p, vp), (i, v), (q, vq)]
        simp only [headIdD_cons, headIdD_nil, headIdD_append, hf0, lastIdD_cons, lastIdD_nil,
          lastIdD_concat, lastIdD_append, List.length_cons, List.length_append, List.length_nil,
          List.nil_append] at hd ei eq2 ep hc1m
        unfold LinkedList.move_to_back
        simp [ei, hd, eq2, ep, hqi, hiq, hpi, hip, hpq, hqp, hf0i, setE, setD]
      · -- l1' ++ [(p, vp)] ++ (i, v) :: (q, vq) :: l2m ++ [(t, vt)]
        rw [chain_append] at hc2r
        obtain ⟨hc2m, et, -⟩ := hc2r
        simp only [headIdD_cons, headIdD_nil, headIdD_append, hf0, lastIdD_cons, lastIdD_nil,
          lastIdD_concat, lastIdD_append, List.length_cons, List.length_append, List.length_nil,
          List.nil_append] at hd ei eq2 ep et hc1m hc2m
        have hti : ¬ t = i := fun hh => hn2 (t, vt) (by simp) hh
        have hit : ¬ i = t := fun hh => hti hh.symm
        have htq : ¬ t = q := by
          simp only [List.map_cons, List.nodup_cons] at hl2nd
          intro hh
          exact hl2nd.1 (hh ▸ List.mem_map_of_mem Prod.fst
            (by simp : (t, vt) ∈ l2m ++ [(t, vt)]))
        have hqt : ¬ q = t := fun hh => htq hh.symm
        have htp : ¬ t = p := fun hh =>
          hn12 (p, vp) (by simp) (t, vt) (by simp) hh.symm
        have hpt : ¬ p = t := fun hh => htp hh.symm
        unfold LinkedList.move_to_back
        simp [ei, hd, eq2, ep, et, hqi, hiq, hpi, hip, hpq, hqp, hti, hit, htq, hqt,
          htp, hpt, hf0i, setE, setD]

set_option maxHeartbeats 1000000 in
set_option maxHeartbeats 1000000 in
theorem move_to_front_rep_ex (m : Mem) (dId : Nat) (l1 l2 : List (Nat × Int)) (i : Nat)
    (v : Int)
    (hr : ListRep m dId (l1 ++ (i, v) :: l2)) (hne : l1 ≠ []) :
    (LinkedList.move_to_front m (some dId) (some i)).isSome := by
  have hd := hr.data_eq
  obtain ⟨ei, hc1, hc2⟩ := chain_mid_elem m dId l1 l2 i v hr.chain_ok
  obtain ⟨hn1, hn2, hn12, hnd2⟩ := nodup_mid l1 l2 i v hr.nodup
  cases l1 with
  | nil => exact absurd rfl hne
  | cons fp l1r =>
    obtain ⟨f, vf⟩ := fp
    obtain ⟨ef, hc1r⟩ := hc1
    have hfi : ¬ f = i := fun hh => hn1 (f, vf) (by simp) hh
    have hif : ¬ i = f := fun hh => hfi hh.symm
    obtain ⟨-, hl1nd, -⟩ := nodup_append_parts [(f, vf)] (l1r ++ (i, v) :: l2) (by
      have := hr.nodup
      simpa using this)
    obtain rfl | ⟨l1m, p, vp, rfl⟩ := eq_nil_or_snoc l1r
    · -- l1 = [(f, vf)]; the predecessor of i is f itself
      cases l2 with
      | nil =>
        simp only [List.cons_append, List.nil_append, headIdD_cons, headIdD_nil, lastIdD_cons,
          lastIdD_nil, List.length_cons, List.length_nil] at hd ei ef
        unfold LinkedList.move_to_front
        simp [ei, hd, ef, hfi, hif, setE, setD]
      | cons qp l2' =>
        obtain ⟨q, vq⟩ := qp
        obtain ⟨eq2, hc2r⟩ := hc2
        have hqi : ¬ q = i := fun hh => hn2 (q, vq) (by simp) hh
        have hiq : ¬ i = q := fun hh => hqi hh.symm
        have hqf : ¬ q = f := fun hh => (hn12 (f, vf) (by simp) (q, vq) (by simp)) hh.symm
        have hfq : ¬ f = q := fun hh => hqf hh.symm
        obtain ⟨t, ht⟩ := lastIdD_isSome l2' q
        have hti : ¬ t = i := by
          rcases lastIdD_mem l2' q t ht with rfl | hmem
          · exact hqi
          · obtain ⟨r, hrmem, hrt⟩ := List.mem_map.mp hmem
            intro hh
            exact hn2 r (by simp [hrmem]) (by rw [hrt, hh])
        simp only [List.cons_append, List.nil_append, headIdD_cons, headIdD_nil, lastIdD_cons,
          lastIdD_nil, ht, List.length_cons, List.length_nil] at hd ei ef eq2
        unfold LinkedList.move_to_front
        simp [ei, hd, ef, eq2, hfi, hif, hqi, hiq, hqf, hfq, hti, setE, setD]
    · -- l1 = (f, vf) :: l1m ++ [(p, vp)]
      obtain ⟨-, -, hdisjF⟩ := nodup_append_parts [(f, vf)] ((l1m ++ [(p, vp)]) ++ (i, v) :: l2)
        (by have := hr.nodup; simpa using this)
      rw [chain_append] at hc1r
      obtain ⟨hc1m, ep, -⟩ := hc1r
      have hpi : ¬ p = i := fun hh => hn1 (p, vp) (by simp) hh
      have hip : ¬ i = p := fun hh => hpi hh.symm
      have hfp : ¬ f = p := fun hh =>
        hdisjF (f, vf) (by simp) (p, vp) (by simp) hh
      have hpf : ¬ p = f := fun hh => hfp hh.symm
      obtain ⟨hl1mnd, -, hl1mp⟩ := nodup_append_parts l1m [(p, vp)]
        (nodup_append_parts (l1m ++ [(p, vp)]) ((i, v) :: l2) hl1nd).1
      cases l2 with
      | nil =>
        simp only [List.cons_append, List.nil_append, headIdD_cons, headIdD_nil,
          headIdD_append, lastIdD_cons, lastIdD_nil, lastIdD_concat, lastIdD_append,
          List.length_cons, List.length_nil, List.length_append] at hd ei ef ep
        unfold LinkedList.move_to_front
        simp [ei, hd, ef, ep, hfi, hif, hpi, hip, hpf, hfp, setE, setD]
      | cons qp l2' =>
        obtain ⟨q, vq⟩ := qp
        obtain ⟨eq2, hc2r⟩ := hc2
        have hqi : ¬ q = i := fun hh => hn2 (q, vq) (by simp) hh
        have hiq : ¬ i = q := fun hh => hqi hh.symm
        have hqf : ¬ q = f := fun hh => (hn12 (f, vf) (by simp) (q, vq) (by simp)) hh.symm
        have hfq : ¬ f = q := fun hh => hqf hh.symm
        have hqp : ¬ q = p := fun hh => (hn12 (p, vp) (by simp) (q, vq) (by simp)) hh.symm
        have hpq : ¬ p = q := fun hh => hqp hh.symm
        obtain ⟨t, ht⟩ := lastIdD_isSome l2' q
        have hti : ¬ t = i := by
          rcases lastIdD_mem l2' q t ht with rfl | hmem
          · exact hqi
          · obtain ⟨r, hrmem, hrt⟩ := List.mem_map.mp hmem
            intro hh
            exact hn2 r (by simp [hrmem]) (by rw [hrt, hh])
        simp only [List.cons_append, List.nil_append, headIdD_cons, headIdD_nil,
          headIdD_append, lastIdD_cons, lastIdD_nil, lastIdD_concat, lastIdD_append, ht,
          List.length_cons, List.length_nil, List.length_append] at hd ei ef ep eq2
        unfold LinkedList.move_to_front
        simp [ei, hd, ef, ep, eq2, hfi, hif, hpi, hip, hpf, hfp, hqi, hiq, hqf, hfq,
          hqp, hpq, hti, setE, setD]

theorem clearLoop_none (m : Mem) (fuel : Nat) :
    LinkedList.clearLoop m none fuel = some (m, none) := by
  cases fuel with
  | zero => rfl
  | succ fy => rfl

theorem clearLoop_rep (dId : Nat) : ∀ (l : List (Nat × Int)) (m : Mem) (fuel : Nat),
    ListRep m dId l → l ≠ [] → l.length ≤ fuel →
    ∃ M, LinkedList.clearLoop m (some dId) fuel = some (M, none) ∧
      M.datas dId = none ∧ M.next = m.next ∧ (∀ p ∈ l, M.elems p.1 = none) ∧
      (∀ j, (∀ p ∈ l, j ≠ p.1) → M.elems j = m.elems j) ∧
      (∀ j, j ≠ dId → M.datas j = m.datas j) := by
  intro l
  induction l with
  | nil => intro m fuel _ hne _; exact absurd rfl hne
  | cons fp rest ih =>
    obtain ⟨f, vf⟩ := fp
    intro m fuel hr hne hlen
    have hd := hr.data_eq
    rw [headIdD_cons] at hd
    cases fuel with
    | zero => simp at hlen
    | succ fy =>
      have hfr : LinkedList.front m (some dId) = some (some f) := by
        simp [LinkedList.front, hd]
      cases hrem : LinkedList.remove m (some dId) (some f) with
      | none =>
        have := remove_rep_ex m dId [] rest f vf (by simpa using hr)
        rw [hrem] at this
        simp at this
      | some r =>
        obtain ⟨b₀, m₁, s₁⟩ := r
        cases rest with
        | nil =>
          obtain ⟨hb, hs, hef, hdd, hnx, hfe, hfd⟩ :=
            remove_single m m₁ dId f vf b₀ s₁ (by simpa using hr) hrem
          subst hs
          refine ⟨m₁, ?_, hdd, hnx, ?_, ?_, hfd⟩
          · simp [LinkedList.clearLoop, hfr, hrem, clearLoop_none]
          · intro p hp
            simp only [List.mem_singleton] at hp
            subst hp
            exact hef
          · intro j hj
            exact hfe j (hj (f, vf) (by simp))
        | cons x xs =>
          obtain ⟨hb, hs, hrep₁, hef, hnx, hfe, hfd⟩ :=
            remove_rep m m₁ dId [] (x :: xs) f vf b₀ s₁ (by simpa using hr) (by simp) hrem
          subst hs
          obtain ⟨M, hloop, hMd, hMn, hMel, hMfe, hMfd⟩ :=
            ih m₁ fy (by simpa using hrep₁) (by simp) (by simp at hlen ⊢; omega)
          have hfi : ∀ p ∈ x :: xs, f ≠ p.1 := by
            intro p hp hq
            have hnd := hr.nodup
            simp only [List.map_cons, List.nodup_cons] at hnd
            exact hnd.1 (hq ▸ List.mem_map_of_mem Prod.fst hp)
          refine ⟨M, ?_, hMd, by rw [hMn, hnx], ?_, ?_, ?_⟩
          · simp [LinkedList.clearLoop, hfr, hrem, hloop]
          · intro p hp
            rcases List.mem_cons.mp hp with rfl | hp2
            · show M.elems f = none
              rw [hMfe f (fun r hrq => hfi r hrq)]
              exact hef
            · exact hMel p hp2
          · intro j hj
            rw [hMfe j (fun r hrq => hj r (by simp [hrq]))]
            exact hfe j (by simpa using hj)
          · intro j hj
            rw [hMfd j hj]
            exact hfd j hj

theorem clear_rep (m : Mem) (dId : Nat) (l : List (Nat × Int))
    (hr : ListRep m dId l) (hne : l ≠ []) :
    ∃ M, LinkedList.clear m (some dId) = some (M, none) ∧
      M.datas dId = none ∧ M.next = m.next ∧ (∀ p ∈ l, M.elems p.1 = none) ∧
      (∀ j, j ≠ dId → M.datas j = m.datas j) := by
  have hlen : l.length ≤ m.next := by
    have := length_le_next (l.map Prod.fst) m.next hr.nodup (by
      intro i hi
      obtain ⟨p, hp, rfl⟩ := List.mem_map.mp hi
      exact hr.ids_lt p hp)
    simpa using this
  obtain ⟨M, hloop, hMd, hMn, hMel, -, hMfd⟩ :=
    clearLoop_rep dId l m (m.next + 1) hr hne (by omega)
  exact ⟨M, hloop, hMd, hMn, hMel, hMfd⟩

theorem clear_none (m : Mem) : LinkedList.clear m none = some (m, none) := rfl

theorem setE_datas (m m' : Mem) (i : Nat) (e : ListElement) (h : setE m i e = some m') :
    m'.datas = m.datas := by
  unfold setE at h
  cases hm : m.elems i with
  | none => rw [hm] at h; simp at h
  | some e₀ =>
    rw [hm] at h
    simp only [Option.some.injEq] at h
    rw [← h]

theorem setFirstP_sizes (m m' : Mem) (s : Option Nat) (x : Option Nat)
    (h : setFirstP m s x = some m') :
    ∀ j, (m'.datas j).map ListData.size_cache = (m.datas j).map ListData.size_cache := by
  cases s with
  | none => simp [setFirstP] at h
  | some dId =>
    cases hm : m.datas dId with
    | none => simp [setFirstP, hm] at h
    | some d =>
      simp [setFirstP, setD, hm] at h
      subst h
      intro j
      by_cases hj : j = dId
      · subst hj; simp [hm]
      · simp [hj]

theorem setLastP_sizes (m m' : Mem) (s : Option Nat) (x : Option Nat)
    (h : setLastP m s x = some m') :
    ∀ j, (m'.datas j).map ListData.size_cache = (m.datas j).map ListData.size_cache := by
  cases s with
  | none => simp [setLastP] at h
  | some dId =>
    cases hm : m.datas dId with
    | none => simp [setLastP, hm] at h
    | some d =>
      simp [setLastP, setD, hm] at h
      subst h
      intro j
      by_cases hj : j = dId
      · subst hj; simp [hm]
      · simp [hj]

/-- Size preservation for the tail of `move_before` (from the `p_A->next_ptr = p_B`
assignment onwards): none of the remaining writes touches a `size_cache`. -/
theorem move_before_tail_sizes (m₃ m' : Mem) (s : Option Nat) (a : Nat) (pB : Option Nat)
    (h : (match pB with
      | none => do
          let t ← getLastP m₃ s
          let ea3 ← m₃.elems a
          let m ← setE m₃ a { ea3 with prev_ptr := t }
          setLastP m s (some a)
      | some b => do
          let eb ← m₃.elems b
          let ea3 ← m₃.elems a
          let m ← setE m₃ a { ea3 with prev_ptr := eb.prev_ptr }
          let m ← match eb.prev_ptr with
            | some p2 => do
                let pe2 ← m.elems p2
                setE m p2 { pe2 with next_ptr := some a }
            | none => setFirstP m s (some a)
          let eb1 ← m.elems b
          setE m b { eb1 with prev_ptr := some a }) = some m') :
    ∀ j, (m'.datas j).map ListData.size_cache = (m₃.datas j).map ListData.size_cache := by
  cases pB with
  | none =>
    obtain ⟨t, ht, h⟩ := Option.bind_eq_some.mp h
    obtain ⟨ea3, hea3, h⟩ := Option.bind_eq_some.mp h
    obtain ⟨m₄, h4, h⟩ := Option.bind_eq_some.mp h
    have s4 : m₄.datas = m₃.datas := setE_datas _ _ _ _ h4
    have s5 := setLastP_sizes _ _ _ _ h
    intro j
    rw [s5 j, s4]
  | some b =>
    obtain ⟨eb, heb, h⟩ := Option.bind_eq_some.mp h
    obtain ⟨ea3, hea3, h⟩ := Option.bind_eq_some.mp h
    obtain ⟨m₄, h4, h⟩ := Option.bind_eq_some.mp h
    have s4 : m₄.datas = m₃.datas := setE_datas _ _ _ _ h4
    replace h : (match eb.prev_ptr with
      | some p2 => do
          let pe2 ← m₄.elems p2
          let m ← setE m₄ p2 { pe2 with next_ptr := some a }
          let eb1 ← m.elems b
          setE m b { eb1 with prev_ptr := some a }
      | none => do
          let m ← setFirstP m₄ s (some a)
          let eb1 ← m.elems b
          setE m b { eb1 with prev_ptr := some a }) = some m' := h
    cases hp2 : eb.prev_ptr with
    | some p2 =>
      rw [hp2] at h
      obtain ⟨pe2, hpe2, h⟩ := Option.bind_eq_some.mp h
      obtain ⟨m₅, h5, h⟩ := Option.bind_eq_some.mp h
      have s5 : m₅.datas = m₄.datas := setE_datas _ _ _ _ h5
      obtain ⟨eb1, heb1, h⟩ := Option.bind_eq_some.mp h
      have s6 : m'.datas = m₅.datas := setE_datas _ _ _ _ h
      intro j
      rw [s6, s5, s4]
    | none =>
      rw [hp2] at h
      obtain ⟨m₅, h5, h⟩ := Option.bind_eq_some.mp h
      have s5 := setFirstP_sizes _ _ _ _ h5
      obtain ⟨eb1, heb1, h⟩ := Option.bind_eq_some.mp h
      have s6 : m'.datas = m₅.datas := setE_datas _ _ _ _ h
      intro j
      rw [s6, s5 j, s4]

theorem move_before_sizes (m m' : Mem) (s pA pB : Option Nat)
    (h : LinkedList.move_before m s pA pB = some m') :
    ∀ j, (m'.datas j).map ListData.size_cache = (m.datas j).map ListData.size_cache := by
  cases pA with
  | none => simp [LinkedList.move_before] at h
  | some a =>
    cases hea : m.elems a with
    | none => simp [LinkedList.move_before, hea] at h
    | some ea =>
      simp only [LinkedList.move_before, hea] at h
      cases hp : ea.prev_ptr with
      | some p =>
        rw [hp] at h
        obtain ⟨pe, hpe, h⟩ := Option.bind_eq_some.mp h
        obtain ⟨m₁, h1, h⟩ := Option.bind_eq_some.mp h
        have s1 : m₁.datas = m.datas := setE_datas _ _ _ _ h1
        obtain ⟨ea1, hea1, h⟩ := Option.bind_eq_some.mp h
        cases hq : ea1.next_ptr with
        | some q =>
          rw [hq] at h
          obtain ⟨qe, hqe, h⟩ := Option.bind_eq_some.mp h
          obtain ⟨m₂, h2, h⟩ := Option.bind_eq_some.mp h
          have s2 : m₂.datas = m₁.datas := setE_datas _ _ _ _ h2
          obtain ⟨ea2, hea2, h⟩ := Option.bind_eq_some.mp h
          obtain ⟨m₃, h3, h⟩ := Option.bind_eq_some.mp h
          have s3 : m₃.datas = m₂.datas := setE_datas _ _ _ _ h3
          have st := move_before_tail_sizes m₃ m' s a pB h
          intro j
          rw [st j, s3, s2, s1]
        | none =>
          rw [hq] at h
          obtain ⟨m₂, h2, h⟩ := Option.bind_eq_some.mp h
          have s2 := setLastP_sizes _ _ _ _ h2
          obtain ⟨ea2, hea2, h⟩ := Option.bind_eq_some.mp h
          obtain ⟨m₃, h3, h⟩ := Option.bind_eq_some.mp h
          have s3 : m₃.datas = m₂.datas := setE_datas _ _ _ _ h3
          have st := move_before_tail_sizes m₃ m' s a pB h
          intro j
          rw [st j, s3, s2 j, s1]
      | none =>
        rw [hp] at h
        obtain ⟨m₁, h1, h⟩ := Option.bind_eq_some.mp h
        have s1 := setFirstP_sizes _ _ _ _ h1
        obtain ⟨ea1, hea1, h⟩ := Option.bind_eq_some.mp h
        cases hq : ea1.next_ptr with
        | some q =>
          rw [hq] at h
          obtain ⟨qe, hqe, h⟩ := Option.bind_eq_some.mp h
          obtain ⟨m₂, h2, h⟩ := Option.bind_eq_some.mp h
          have s2 : m₂.datas = m₁.datas := setE_datas _ _ _ _ h2
          obtain ⟨ea2, hea2, h⟩ := Option.bind_eq_some.mp h
          obtain ⟨m₃, h3, h⟩ := Option.bind_eq_some.mp h
          have s3 : m₃.datas = m₂.datas := setE_datas _ _ _ _ h3
          have st := move_before_tail_sizes m₃ m' s a pB h
          intro j
          rw [st j, s3, s2, s1 j]
        | none =>
          rw [hq] at h
          obtain ⟨m₂, h2, h⟩ := Option.bind_eq_some.mp h
          have s2 := setLastP_sizes _ _ _ _ h2
          obtain ⟨ea2, hea2, h⟩ := Option.bind_eq_some.mp h
          obtain ⟨m₃, h3, h⟩ := Option.bind_eq_some.mp h
          have s3 : m₃.datas = m₂.datas := setE_datas _ _ _ _ h3
          have st := move_before_tail_sizes m₃ m' s a pB h
          intro j
          rw [st j, s3, s2 j, s1 j]

/-! ### Concrete states used by witnesses and counterexamples -/

/-- The heap and handle obtained by pushing 10, 20, 30 into a fresh list:
storage block 0, nodes 1, 2, 3. -/
def mABC : Mem × Option Nat := (buildList [10, 20, 30]).getD (emptyMem, none)

theorem repABC : ListRep mABC.1 0 [(1, 10), (2, 20), (3, 30)] := by
  refine ⟨?_, ?_, ?_, ?_, ?_⟩
  · rfl
  · exact ⟨rfl, rfl, rfl, trivial⟩
  · decide
  · decide
  · decide

/-- Two lists in one heap: block 0 holds [10, 20] (nodes 1, 2), block 3 holds
[30] (node 4). -/
def twoLists : Mem × Option Nat × Option Nat :=
  ((do
    let a ← buildList [10, 20]
    let r ← LinkedList.push_back a.1 none 30
    some (r.1, a.2, some r.2.1) : Option (Mem × Option Nat × Option Nat)).getD
      (emptyMem, none, none))

theorem push_back_fresh (m M : Mem) (v : Int) (dId nId : Nat)
    (h : LinkedList.push_back m none v = some (M, dId, nId)) :
    dId = m.next ∧ nId = m.next + 1 ∧ ListRep M dId [(nId, v)] ∧ M.next = m.next + 2 := by
  unfold LinkedList.push_back at h
  simp [setD] at h
  obtain ⟨hM, hd, hn⟩ := h
  subst hd hn
  subst hM
  refine ⟨rfl, rfl, ⟨?_, ?_, ?_, ?_, ?_⟩, rfl⟩
  · simp [headIdD, lastIdD]
  · simp [chain, headIdD]
  · simp
  · simp
  · show m.next < m.next + 1 + 1
    omega

theorem push_back_fresh_ex (m : Mem) (v : Int) :
    (LinkedList.push_back m none v).isSome := by
  unfold LinkedList.push_back
  simp [setD]

theorem push_front_fresh (m M : Mem) (v : Int) (dId nId : Nat)
    (h : LinkedList.push_front m none v = some (M, dId, nId)) :
    dId = m.next ∧ nId = m.next + 1 ∧ ListRep M dId [(nId, v)] ∧ M.next = m.next + 2 := by
  unfold LinkedList.push_front at h
  simp [setD] at h
  obtain ⟨hM, hd, hn⟩ := h
  subst hd hn
  subst hM
  refine ⟨rfl, rfl, ⟨?_, ?_, ?_, ?_, ?_⟩, rfl⟩
  · simp [headIdD, lastIdD]
  · simp [chain, headIdD]
  · simp
  · simp
  · show m.next < m.next + 1 + 1
    omega

theorem push_front_fresh_ex (m : Mem) (v : Int) :
    (LinkedList.push_front m none v).isSome := by
  unfold LinkedList.push_front
  simp [setD]

theorem buildAux : ∀ (vs : List Int) (m : Mem) (dId : Nat) (l : List (Nat × Int)),
    ListRep m dId l →
    ∃ M pairs, List.foldl buildStep (some (m, some dId)) vs = some (M, some dId) ∧
      ListRep M dId (l ++ pairs) ∧ pairs.map Prod.snd = vs := by
  intro vs
  induction vs with
  | nil =>
    intro m dId l hr
    exact ⟨m, [], rfl, by simpa using hr, rfl⟩
  | cons v vs' ih =>
    intro m dId l hr
    obtain ⟨r, hrr⟩ := Option.isSome_iff_exists.mp (push_back_rep_ex m dId l v hr)
    obtain ⟨M₁, d₁, n₁⟩ := r
    obtain ⟨hd₁, hn₁, hrep₁, -, -, -⟩ := push_back_rep m M₁ dId l v d₁ n₁ hr hrr
    rw [hd₁] at hrr
    obtain ⟨M, pairs, hfold, hrep, hmap⟩ := ih M₁ dId (l ++ [(m.next, v)]) hrep₁
    refine ⟨M, (m.next, v) :: pairs, ?_, ?_, ?_⟩
    · simp only [List.foldl_cons, buildStep, hrr, Option.some_bind, Option.map_some']
      exact hfold
    · simpa [List.append_assoc] using hrep
    · simp [hmap]

theorem buildList_rep (vs : List Int) :
    ∃ p, buildList vs = some p ∧
      ((vs = [] ∧ p = (emptyMem, none)) ∨
        (∃ dId l, p.2 = some dId ∧ ListRep p.1 dId l ∧ l.map Prod.snd = vs)) := by
  cases vs with
  | nil => exact ⟨(emptyMem, none), rfl, Or.inl ⟨rfl, rfl⟩⟩
  | cons v vs' =>
    obtain ⟨r, hrr⟩ := Option.isSome_iff_exists.mp (push_back_fresh_ex emptyMem v)
    obtain ⟨M₁, d₁, n₁⟩ := r
    obtain ⟨hd₁, hn₁, hrep₁, -⟩ := push_back_fresh emptyMem M₁ v d₁ n₁ hrr
    rw [hd₁] at hrr hrep₁
    obtain ⟨M, pairs, hfold, hrep, hmap⟩ := buildAux vs' M₁ emptyMem.next [(n₁, v)] hrep₁
    refine ⟨(M, some emptyMem.next), ?_, Or.inr ⟨emptyMem.next, (n₁, v) :: pairs, rfl, ?_, ?_⟩⟩
    · simp only [buildList, List.foldl_cons, buildStep, Option.some_bind, hrr,
        Option.map_some']
      exact hfold
    · simpa using hrep
    · simp [hmap]

/-! ### Claim theorems -/

/-- C1: the spec says `move_before(x, y)` unlinks `x` and re-links it before
`y`, with `y = null` meaning the tail, so a front-to-back traversal visits `x`
last.  Evaluated on [10, 20, 30] (nodes 1, 2, 3): moving node 3 before node 2
yields [10, 30, 20] as the claim states, but `move_before(node 1, null)` never
re-links the old tail's `next_ptr`, so the forward traversal yields only
[20, 30] - node 1 is not visited last, it is unreachable from the head (the
backward traversal still finds it, showing only the forward chain is broken).
The null case of the claim fails on the code. -/
theorem c1_move_before_eval :
    (LinkedList.move_before mABC.1 mABC.2 (some 3) (some 2)).bind
        (fun mm => LinkedList.traverseF mm mABC.2) = some [10, 30, 20] ∧
    (LinkedList.move_before mABC.1 mABC.2 (some 1) none).bind
        (fun mm => LinkedList.traverseF mm mABC.2) = some [20, 30] ∧
    (LinkedList.move_before mABC.1 mABC.2 (some 1) none).bind
        (fun mm => LinkedList.traverseB mm mABC.2) = some [10, 30, 20] :=
  ⟨rfl, rfl, rfl⟩

/-- C2: the spec says every public operation preserves the storage invariants.
After `move_before(node 1, null)` on [10, 20, 30] they are broken: the cached
count is still 3 but only 2 nodes are reachable from the head; the tail is
node 1 with `prev_ptr = 3`, yet node 3's `next_ptr` is null, violating double
consistency. -/
theorem c2_invariants_eval :
    (LinkedList.move_before mABC.1 mABC.2 (some 1) none).bind
        (fun mm => LinkedList.size mm mABC.2) = some 3 ∧
    (LinkedList.move_before mABC.1 mABC.2 (some 1) none).bind
        (fun mm => (LinkedList.traverseF mm mABC.2).map List.length) = some 2 ∧
    (LinkedList.move_before mABC.1 mABC.2 (some 1) none).bind
        (fun mm => (mm.datas 0).map ListData.last) = some (some 1) ∧
    (LinkedList.move_before mABC.1 mABC.2 (some 1) none).bind
        (fun mm => (mm.elems 1).map ListElement.prev_ptr) = some (some 3) ∧
    (LinkedList.move_before mABC.1 mABC.2 (some 1) none).bind
        (fun mm => (mm.elems 3).map ListElement.next_ptr) = some none :=
  ⟨rfl, rfl, rfl, rfl, rfl⟩

/-- C3 counterexample: the claim says every erase/remove/move operation turns a
null or foreign handle into a failure signal and leaves the list unchanged
with no undefined dereference.  On the two-list heap: `move_to_back` with a
null handle dereferences it (a crash, modelled by `none`), and
`L2.move_before(node 1 of L1, null)` mutates L2's storage block (its `first`
becomes node 2 of L1 and its `last` node 1) instead of failing. -/
theorem c3_counterexample :
    LinkedList.move_to_back twoLists.1 twoLists.2.1 none = none ∧
    (LinkedList.move_before twoLists.1 twoLists.2.2 (some 1) none).map
        (fun mm => mm.datas 3) = some (some ⟨some 2, some 1, 1⟩) ∧
    twoLists.1.datas 3 = some (⟨some 4, some 4, 1⟩ : ListData) :=
  ⟨rfl, rfl, rfl⟩

theorem erase_null (m : Mem) (dId : Nat) :
    ListData.erase m dId none = some (false, m) := rfl

theorem erase_mismatch (m : Mem) (dId i : Nat) (e : ListElement)
    (he : m.elems i = some e) (hd : e.data ≠ dId) :
    ListData.erase m dId (some i) = some (false, m) := by
  simp [ListData.erase, he, hd]

theorem remove_null_live (m : Mem) (dId : Nat) (dd : ListData)
    (hd : m.datas dId = some dd) (hsz : dd.size_cache ≠ 0) :
    LinkedList.remove m (some dId) none = some (false, m, some dId) := by
  simp [LinkedList.remove, ListData.erase, hd, hsz]

theorem remove_mismatch_live (m : Mem) (dId i : Nat) (dd : ListData) (e : ListElement)
    (hd : m.datas dId = some dd) (hsz : dd.size_cache ≠ 0)
    (he : m.elems i = some e) (hdata : e.data ≠ dId) :
    LinkedList.remove m (some dId) (some i) = some (false, m, some dId) := by
  simp [LinkedList.remove, ListData.erase, hd, hsz, he, hdata]

/-- C3 (amended): `ListData::erase` and `LinkedList::remove` report failure
and leave the state unchanged for a null handle and for a handle whose
back-reference does not match; `move_to_back` and `move_to_front` early-return
with the state unchanged on a back-reference mismatch, but dereference the
handle first, so a null handle is an undefined dereference rather than a
failure signal; and `move_before` performs no validation at all: a null first
argument is dereferenced (and, per the counterexample, a foreign handle
mutates list state). -/
theorem c3_validation :
    (∀ (m : Mem) (dId : Nat), ListData.erase m dId none = some (false, m)) ∧
    (∀ (m : Mem) (dId i : Nat) (e : ListElement),
      m.elems i = some e → e.data ≠ dId →
      ListData.erase m dId (some i) = some (false, m)) ∧
    (∀ (m : Mem) (p : Option Nat), LinkedList.remove m none p = some (false, m, none)) ∧
    (∀ (m : Mem) (dId : Nat) (dd : ListData),
      m.datas dId = some dd → dd.size_cache ≠ 0 →
      LinkedList.remove m (some dId) none = some (false, m, some dId)) ∧
    (∀ (m : Mem) (dId i : Nat) (dd : ListData) (e : ListElement),
      m.datas dId = some dd → dd.size_cache ≠ 0 → m.elems i = some e → e.data ≠ dId →
      LinkedList.remove m (some dId) (some i) = some (false, m, some dId)) ∧
    (∀ (m : Mem) (s : Option Nat) (i : Nat) (e : ListElement),
      m.elems i = some e → ¬ (some e.data = s) →
      LinkedList.move_to_back m s (some i) = some m) ∧
    (∀ (m : Mem) (s : Option Nat) (i : Nat) (e : ListElement),
      m.elems i = some e → ¬ (some e.data = s) →
      LinkedList.move_to_front m s (some i) = some m) ∧
    (∀ (m : Mem) (s : Option Nat), LinkedList.move_to_back m s none = none) ∧
    (∀ (m : Mem) (s : Option Nat), LinkedList.move_to_front m s none = none) ∧
    (∀ (m : Mem) (s pB : Option Nat), LinkedList.move_before m s none pB = none) :=
  ⟨erase_null, erase_mismatch, fun m p => rfl, remove_null_live, remove_mismatch_live,
    move_to_back_mismatch, move_to_front_mismatch, move_to_back_null, move_to_front_null,
    fun m s pB => rfl⟩

/-- C3 witness: moving the foreign node 4 (owned by block 3) to the back of
the list whose storage is block 0 is rejected, leaving the heap unchanged. -/
theorem c3_validation_witness :
    LinkedList.move_to_back twoLists.1 (some 0) (some 4) = some twoLists.1 :=
  c3_validation.2.2.2.2.2.1 twoLists.1 (some 0) 4 ⟨30, none, none, 3⟩ rfl (by decide)

/-- C9: `move_before` never changes the element count: whenever the call
completes, every storage block's `size_cache` is unchanged, and in particular
`size()` returns the same value before and after, for any pair of handles
and any list handle. -/
theorem c9_move_before_size (m m' : Mem) (s pA pB : Option Nat)
    (h : LinkedList.move_before m s pA pB = some m') :
    (∀ j, (m'.datas j).map ListData.size_cache = (m.datas j).map ListData.size_cache) ∧
    LinkedList.size m' s = LinkedList.size m s := by
  have hs := move_before_sizes m m' s pA pB h
  refine ⟨hs, ?_⟩
  cases s with
  | none => rfl
  | some dId => simp only [LinkedList.size]; exact hs dId

/-- C9 witness: moving node 3 before node 2 in [10, 20, 30] leaves `size()`
unchanged. -/
theorem c9_witness :
    LinkedList.size ((LinkedList.move_before mABC.1 mABC.2 (some 3) (some 2)).getD emptyMem)
        mABC.2 = LinkedList.size mABC.1 mABC.2 :=
  (c9_move_before_size mABC.1 _ mABC.2 (some 3) (some 2) (by rfl)).2

/-- C10: `remove` on a handle that owns no storage returns `false` and leaves
both the heap and the (empty) handle unchanged, for every argument including
null. -/
theorem c10_remove_empty_handle (m : Mem) (p : Option Nat) :
    LinkedList.remove m none p = some (false, m, none) := rfl

/-- C4: `move_to_back` and `move_to_front` on any node of a represented list
only reorder it: the result is again a well-formed representation whose value
sequence is a permutation of the original and whose `size()` is unchanged;
moving the node already at the target end (in particular the already-front
node to the front) returns with the heap exactly unchanged. -/
theorem c4_move_to_ends :
    (∀ (m : Mem) (dId : Nat) (l1 l2 : List (Nat × Int)) (i : Nat) (v : Int),
      ListRep m dId (l1 ++ (i, v) :: l2) → l2 ≠ [] →
      ∃ M, LinkedList.move_to_back m (some dId) (some i) = some M ∧
        ListRep M dId (l1 ++ l2 ++ [(i, v)]) ∧
        ((l1 ++ l2 ++ [(i, v)]).map Prod.snd).Perm ((l1 ++ (i, v) :: l2).map Prod.snd) ∧
        LinkedList.size M (some dId) = LinkedList.size m (some dId)) ∧
    (∀ (m : Mem) (dId : Nat) (l : List (Nat × Int)) (t : Nat) (vt : Int),
      ListRep m dId (l ++ [(t, vt)]) →
      LinkedList.move_to_back m (some dId) (some t) = some m) ∧
    (∀ (m : Mem) (dId : Nat) (l1 l2 : List (Nat × Int)) (i : Nat) (v : Int),
      ListRep m dId (l1 ++ (i, v) :: l2) → l1 ≠ [] →
      ∃ M, LinkedList.move_to_front m (some dId) (some i) = some M ∧
        ListRep M dId ((i, v) :: (l1 ++ l2)) ∧
        (((i, v) :: (l1 ++ l2)).map Prod.snd).Perm ((l1 ++ (i, v) :: l2).map Prod.snd) ∧
        LinkedList.size M (some dId) = LinkedList.size m (some dId)) ∧
    (∀ (m : Mem) (dId : Nat) (l : List (Nat × Int)) (f : Nat) (vf : Int),
      ListRep m dId ((f, vf) :: l) →
      LinkedList.move_to_front m (some dId) (some f) = some m) := by
  refine ⟨?_, move_to_back_last, ?_, move_to_front_first⟩
  · intro m dId l1 l2 i v hr hne
    obtain ⟨M, hM⟩ := Option.isSome_iff_exists.mp (move_to_back_rep_ex m dId l1 l2 i v hr hne)
    obtain ⟨hrep, hnx, -⟩ := move_to_back_rep m M dId l1 l2 i v hr hne hM
    refine ⟨M, hM, hrep, (perm_move_back l1 l2 i v).map Prod.snd, ?_⟩
    simp only [LinkedList.size, hrep.data_eq, hr.data_eq, Option.map_some']
    simp [List.length_append]
    try push_cast
    try ring
  · intro m dId l1 l2 i v hr hne
    obtain ⟨M, hM⟩ := Option.isSome_iff_exists.mp (move_to_front_rep_ex m dId l1 l2 i v hr hne)
    obtain ⟨hrep, hnx, -⟩ := move_to_front_rep m M dId l1 l2 i v hr hne hM
    refine ⟨M, hM, hrep, (perm_move_front l1 l2 i v).map Prod.snd, ?_⟩
    simp only [LinkedList.size, hrep.data_eq, hr.data_eq, Option.map_some']
    simp [List.length_append]
    try push_cast
    try ring

/-- C4 witness: moving node 2 of [10, 20, 30] to the back. -/
theorem c4_witness :
    ∃ M, LinkedList.move_to_back mABC.1 (some 0) (some 2) = some M ∧
      ListRep M 0 ([(1, 10)] ++ [(3, 30)] ++ [(2, 20)]) ∧
      ((([(1, 10)] ++ [(3, 30)] ++ [(2, 20)] : List (Nat × Int))).map Prod.snd).Perm
        ((([(1, 10)] ++ (2, 20) :: [(3, 30)] : List (Nat × Int))).map Prod.snd) ∧
      LinkedList.size M (some 0) = LinkedList.size mABC.1 (some 0) :=
  c4_move_to_ends.1 mABC.1 0 [(1, 10)] [(3, 30)] 2 20 repABC (by decide)

/-- C5: `find(v)` returns the id of the first node in front-to-back order
whose value equals `v` (or null), `erase(v)` removes exactly that node,
decrements the size by one and returns success (freeing the storage when the
list becomes empty), and erasing an absent value returns failure leaving the
heap completely unchanged. -/
theorem c5_find_erase :
    (∀ (m : Mem) (dId : Nat) (l : List (Nat × Int)) (v : Int), ListRep m dId l →
      LinkedList.find m (some dId) v =
        some ((l.find? fun p => p.2 == v).map Prod.fst)) ∧
    (∀ (m : Mem) (v : Int), LinkedList.find m none v = some none) ∧
    (∀ (m : Mem) (dId : Nat) (l1 l2 : List (Nat × Int)) (i : Nat) (v : Int),
      ListRep m dId (l1 ++ (i, v) :: l2) → (∀ p ∈ l1, ¬ (p.2 = v)) → l1 ++ l2 ≠ [] →
      ∃ M, LinkedList.erase m (some dId) v = some (true, M, some dId) ∧
        ListRep M dId (l1 ++ l2) ∧ M.elems i = none ∧
        LinkedList.size M (some dId) = some (((l1 ++ (i, v) :: l2).length : Int) - 1)) ∧
    (∀ (m : Mem) (dId i : Nat) (v : Int), ListRep m dId [(i, v)] →
      ∃ M, LinkedList.erase m (some dId) v = some (true, M, none) ∧
        M.elems i = none ∧ M.datas dId = none ∧ LinkedList.size M none = some 0) ∧
    (∀ (m : Mem) (dId : Nat) (l : List (Nat × Int)) (v : Int),
      ListRep m dId l → (∀ p ∈ l, ¬ (p.2 = v)) → l ≠ [] →
      LinkedList.erase m (some dId) v = some (false, m, some dId)) ∧
    (∀ (m : Mem) (v : Int), LinkedList.erase m none v = some (false, m, none)) := by
  refine ⟨find_rep, find_none, ?_, ?_, erase_value_absent, erase_value_none⟩
  · intro m dId l1 l2 i v hr hno hne
    obtain ⟨r, hrr⟩ := Option.isSome_iff_exists.mp (erase_value_found_ex m dId l1 l2 i v hr hno)
    obtain ⟨b, M, s'⟩ := r
    obtain ⟨hb, hs, hrep, hei, -⟩ := erase_value_found m M dId l1 l2 i v b s' hr hno hne hrr
    subst hb
    subst hs
    refine ⟨M, hrr, hrep, hei, ?_⟩
    simp only [LinkedList.size, hrep.data_eq, Option.map_some']
    simp [List.length_append]
    try push_cast
    try ring
  · intro m dId i v hr
    obtain ⟨r, hrr⟩ := Option.isSome_iff_exists.mp
      (erase_value_found_ex m dId [] [] i v (by simpa using hr) (by simp))
    obtain ⟨b, M, s'⟩ := r
    obtain ⟨hb, hs, hei, hdd, -⟩ := erase_value_single m M dId i v b s' hr hrr
    subst hb
    subst hs
    exact ⟨M, hrr, hei, hdd, rfl⟩

/-- C5 witness: erasing value 20 from [10, 20, 30]. -/
theorem c5_witness :
    ∃ M, LinkedList.erase mABC.1 (some 0) 20 = some (true, M, some 0) ∧
      ListRep M 0 ([(1, 10)] ++ [(3, 30)]) ∧ M.elems 2 = none ∧
      LinkedList.size M (some 0) =
        some (((([(1, 10)] ++ (2, 20) :: [(3, 30)]).length : Nat) : Int) - 1) :=
  c5_find_erase.2.2.1 mABC.1 0 [(1, 10)] [(3, 30)] 2 20 repABC (by decide) (by decide)

/-- C6: pushing any sequence of values with `push_back` into a fresh list
succeeds, and iterating from `front()` along `next()` visits them in push
order, while iterating from `back()` along `prev()` visits them reversed. -/
theorem c6_roundtrip (vs : List Int) :
    ∃ p, buildList vs = some p ∧ LinkedList.traverseF p.1 p.2 = some vs ∧
      LinkedList.traverseB p.1 p.2 = some vs.reverse := by
  obtain ⟨p, hp, hcase⟩ := buildList_rep vs
  rcases hcase with ⟨rfl, rfl⟩ | ⟨dId, l, hs, hrep, hmap⟩
  · exact ⟨(emptyMem, none), hp, rfl, rfl⟩
  · refine ⟨p, hp, ?_, ?_⟩
    · rw [hs, traverseF_rep p.1 dId l hrep, hmap]
    · rw [hs, traverseB_rep p.1 dId l hrep, hmap]

/-- C7: `pop_back`/`pop_front` on an empty list are no-ops; on a non-empty
list they remove and free the tail/head node, releasing the storage block and
resetting the handle to null when the list becomes empty (`clear` does the
same for all nodes at once); and a subsequent push on a null handle behaves
exactly as on a freshly constructed list, producing a well-formed one-element
list regardless of any residue in the heap. -/
theorem c7_pop_clear_reset :
    (∀ m : Mem, LinkedList.pop_back m none = some (m, none)) ∧
    (∀ m : Mem, LinkedList.pop_front m none = some (m, none)) ∧
    (∀ (m : Mem) (dId : Nat) (l : List (Nat × Int)) (t : Nat) (vt : Int),
      ListRep m dId (l ++ [(t, vt)]) →
      ∃ M s', LinkedList.pop_back m (some dId) = some (M, s') ∧ M.elems t = none ∧
        (l = [] → s' = none ∧ M.datas dId = none) ∧
        (l ≠ [] → s' = some dId ∧ ListRep M dId l)) ∧
    (∀ (m : Mem) (dId : Nat) (l : List (Nat × Int)) (f : Nat) (vf : Int),
      ListRep m dId ((f, vf) :: l) →
      ∃ M s', LinkedList.pop_front m (some dId) = some (M, s') ∧ M.elems f = none ∧
        (l = [] → s' = none ∧ M.datas dId = none) ∧
        (l ≠ [] → s' = some dId ∧ ListRep M dId l)) ∧
    (∀ (m : Mem) (dId : Nat) (l : List (Nat × Int)), ListRep m dId l → l ≠ [] →
      ∃ M, LinkedList.clear m (some dId) = some (M, none) ∧ M.datas dId = none ∧
        ∀ p ∈ l, M.elems p.1 = none) ∧
    (∀ (m : Mem) (v : Int),
      ∃ M dId nId, LinkedList.push_back m none v = some (M, dId, nId) ∧
        ListRep M dId [(nId, v)]) ∧
    (∀ (m : Mem) (v : Int),
      ∃ M dId nId, LinkedList.push_front m none v = some (M, dId, nId) ∧
        ListRep M dId [(nId, v)]) := by
  refine ⟨fun m => rfl, fun m => rfl, ?_, ?_, ?_, ?_, ?_⟩
  · intro m dId l t vt hr
    obtain ⟨r, hrr⟩ := Option.isSome_iff_exists.mp (pop_back_rep_ex m dId l t vt hr)
    obtain ⟨M, s'⟩ := r
    obtain ⟨hnil, hcons, hel, -, -⟩ := pop_back_rep m M dId l t vt s' hr hrr
    exact ⟨M, s', hrr, hel, fun h => ⟨(hnil h).1, (hnil h).2.1⟩, hcons⟩
  · intro m dId l f vf hr
    obtain ⟨r, hrr⟩ := Option.isSome_iff_exists.mp (pop_front_rep_ex m dId l f vf hr)
    obtain ⟨M, s'⟩ := r
    obtain ⟨hnil, hcons, hel, -, -⟩ := pop_front_rep m M dId l f vf s' hr hrr
    exact ⟨M, s', hrr, hel, fun h => ⟨(hnil h).1, (hnil h).2.1⟩, hcons⟩
  · intro m dId l hr hne
    obtain ⟨M, hM, hdd, -, hel, -⟩ := clear_rep m dId l hr hne
    exact ⟨M, hM, hdd, hel⟩
  · intro m v
    obtain ⟨r, hrr⟩ := Option.isSome_iff_exists.mp (push_back_fresh_ex m v)
    obtain ⟨M, dId, nId⟩ := r
    obtain ⟨-, -, hrep, -⟩ := push_back_fresh m M v dId nId hrr
    exact ⟨M, dId, nId, hrr, hrep⟩
  · intro m v
    obtain ⟨r, hrr⟩ := Option.isSome_iff_exists.mp (push_front_fresh_ex m v)
    obtain ⟨M, dId, nId⟩ := r
    obtain ⟨-, -, hrep, -⟩ := push_front_fresh m M v dId nId hrr
    exact ⟨M, dId, nId, hrr, hrep⟩

/-- C7 witness: popping the tail of [10, 20, 30]. -/
theorem c7_witness :
    ∃ M s', LinkedList.pop_back mABC.1 (some 0) = some (M, s') ∧ M.elems 3 = none ∧
      ([(1, 10), (2, 20)] = ([] : List (Nat × Int)) → s' = none ∧ M.datas 0 = none) ∧
      ([(1, 10), (2, 20)] ≠ ([] : List (Nat × Int)) → s' = some 0 ∧
        ListRep M 0 [(1, 10), (2, 20)]) :=
  c7_pop_clear_reset.2.2.1 mABC.1 0 [(1, 10), (2, 20)] 3 30 repABC

/-- C8: `push_back` and `push_front` on a represented list allocate exactly
one new node (with the fresh id `m.next`) carrying the new value at the
requested end: the result represents the old sequence with the new pair
appended or prepended, so every pre-existing node keeps its value and the
relative order of the old elements is unchanged, as the frame condition on all
untouched heap cells confirms. -/
theorem c8_push_preserves :
    (∀ (m : Mem) (dId : Nat) (l : List (Nat × Int)) (v : Int), ListRep m dId l →
      ∃ M n, LinkedList.push_back m (some dId) v = some (M, dId, n) ∧ n = m.next ∧
        ListRep M dId (l ++ [(n, v)]) ∧
        (∀ j, j ≠ m.next → (∀ p ∈ l, j ≠ p.1) → M.elems j = m.elems j)) ∧
    (∀ (m : Mem) (dId : Nat) (l : List (Nat × Int)) (v : Int), ListRep m dId l →
      ∃ M n, LinkedList.push_front m (some dId) v = some (M, dId, n) ∧ n = m.next ∧
        ListRep M dId ((n, v) :: l) ∧
        (∀ j, j ≠ m.next → (∀ p ∈ l, j ≠ p.1) → M.elems j = m.elems j)) := by
  constructor
  · intro m dId l v hr
    obtain ⟨r, hrr⟩ := Option.isSome_iff_exists.mp (push_back_rep_ex m dId l v hr)
    obtain ⟨M, d', n'⟩ := r
    obtain ⟨hd, hn, hrep, -, hfe, -⟩ := push_back_rep m M dId l v d' n' hr hrr
    subst hd
    refine ⟨M, n', hrr, hn, ?_, hfe⟩
    rw [hn]
    exact hrep
  · intro m dId l v hr
    obtain ⟨r, hrr⟩ := Option.isSome_iff_exists.mp (push_front_rep_ex m dId l v hr)
    obtain ⟨M, d', n'⟩ := r
    obtain ⟨hd, hn, hrep, -, hfe, -⟩ := push_front_rep m M dId l v d' n' hr hrr
    subst hd
    refine ⟨M, n', hrr, hn, ?_, hfe⟩
    rw [hn]
    exact hrep

/-- C8 witness: pushing 40 at the back of [10, 20, 30]. -/
theorem c8_witness :
    ∃ M n, LinkedList.push_back mABC.1 (some 0) 40 = some (M, 0, n) ∧ n = mABC.1.next ∧
      ListRep M 0 ([(1, 10), (2, 20), (3, 30)] ++ [(n, 40)]) ∧
      (∀ j, j ≠ mABC.1.next →
        (∀ p ∈ ([(1, 10), (2, 20), (3, 30)] : List (Nat × Int)), j ≠ p.1) →
        M.elems j = mABC.1.elems j) :=
  c8_push_preserves.1 mABC.1 0 [(1, 10), (2, 20), (3, 30)] 40 repABC
